import Mathlib

/-! Verification development for the division-method chained hash table
    (ht-divchn) and its doubly linked chain (dll) of the c-cpp-toolbox
    repository. Machine words (C size_t values) are modelled as Nat with
    explicit reduction mod 2 ^ w, where w = CHAR_BIT * sizeof(size_t).
    Keys and elements are byte lists; chains are lists of nodes in forward
    (next-pointer) order from the bucket head. -/

namespace HtDivchn

/-- The C_PRIME_PARTS array of ht-divchn.c: the 16-bit parts of the prime
    ladder, in groups of 1-, 2-, 3- and 4-part primes. -/
def C_PRIME_PARTS : List Nat :=
  [0x0607, 0x0c2f, 0x1843, 0x3037, 0x5dad, 0xbe21, 0x5b0b, 0x0001, 0xd8d5, 
   0x0002, 0xc219, 0x0005, 0x0077, 0x000c, 0xa243, 0x0016, 0x2029, 0x0031, 
   0xcc21, 0x005f, 0x5427, 0x00bf, 0x037f, 0x0180, 0x42bb, 0x030f, 0x1c75, 
   0x06b7, 0x96ad, 0x0c98, 0x96b7, 0x1898, 0xc10f, 0x2ecf, 0x425b, 0x600f, 
   0x0007, 0xc000, 0x016f, 0x8000, 0x0001, 0x9345, 0xffc8, 0x0002, 0x5523, 
   0xf272, 0x0005, 0x1575, 0x0a63, 0x000c, 0x22fb, 0xca07, 0x001b, 0xc513, 
   0x4d6b, 0x0031, 0xa6cd, 0x50f3, 0x0061, 0xa021, 0x5460, 0x00be, 0xea29, 
   0x7882, 0x0179, 0xeaaf, 0x7c3d, 0x02f5, 0xab5f, 0x5a69, 0x05ff, 0x6b1f, 
   0x29ef, 0x0c24, 0xc81b, 0x35a7, 0x17fe, 0x57b7, 0xccbe, 0x2ffb, 0xc8fb, 
   0x1da8, 0x6bf3, 0x82c3, 0x2c9f, 0xc2cc, 0x3233, 0x1c54, 0x7d40, 0x0001, 
   0x60ad, 0x46a1, 0xf55e, 0x0002, 0x6bab, 0x40c4, 0xf12a, 0x0005, 0xb24d, 
   0x6765, 0x38b5, 0x000b, 0x789f, 0xfd94, 0xc6b2, 0x0017, 0x0d35, 0x5443, 
   0xff54, 0x0030, 0x2465, 0x74f9, 0x42d1, 0x005e, 0xd017, 0x90c7, 0x37b3, 
   0x00c6, 0x5055, 0x5a82, 0x64df, 0x0193, 0x6f8f, 0x423b, 0x8949, 0x0304, 
   0xd627, 0x08e0, 0x0b2f, 0x05fe, 0xbbc1, 0x662c, 0x4d90, 0x0bad, 0xf7d3, 
   0x45a1, 0x8ccb, 0x185d, 0xc647, 0x3c91, 0x46b2, 0x2e9b, 0x58a1, 0xbd96, 
   0x2836, 0x5f8c, 0x8969, 0x4c70, 0x6dbe, 0xdad8]

/-- C_PRIME_PARTS_COUNT of ht-divchn.c. -/
def C_PRIME_PARTS_COUNT : Nat := 6 + 16 * (2 + 3 + 4)

/-- C_PARTS_PER_PRIME of ht-divchn.c. -/
def C_PARTS_PER_PRIME : List Nat := [1, 2, 3, 4]

/-- C_PARTS_ACC_COUNTS of ht-divchn.c. -/
def C_PARTS_ACC_COUNTS : List Nat :=
  [6, 6 + 16 * 2, 6 + 16 * (2 + 3), 6 + 16 * (2 + 3 + 4)]

/-- C_BUILD_SHIFT of ht-divchn.c (half-word width in bits). -/
def C_BUILD_SHIFT : Nat := 16

/-- Number of binary digits of n: the while (n_shift) loop of is_overflow.
    The fuel argument (first) makes the recursion structural; any
    fuel ≥ n computes the loop exactly. -/
def bitLenAux : Nat → Nat → Nat
  | _, 0 => 0
  | 0, _ + 1 => 0
  | fuel + 1, n + 1 => bitLenAux fuel ((n + 1) / 2) + 1

/-- Bit count of n, with sufficient fuel. -/
def bitLen (n : Nat) : Nat := bitLenAux n n

/-- build_prime of ht-divchn.c: reconstruct the prime at ladder position
    start from count 16-bit parts, OR-ing each part shifted left by
    i * C_BUILD_SHIFT (a size_t shift, hence the reduction mod 2 ^ w). -/
def build_prime (w start count : Nat) : Nat :=
  (List.range count).foldl
    (fun p i =>
      p ||| (C_PRIME_PARTS.getD (start + i) 0 <<< (i * C_BUILD_SHIFT)) % 2 ^ w)
    0

/-- is_overflow of ht-divchn.c: whether the prime with count parts starting
    at start needs more bits than the host word has. -/
def is_overflow (w start count : Nat) : Bool :=
  decide (bitLen (C_PRIME_PARTS.getD (start + (count - 1)) 0)
    + (count - 1) * C_BUILD_SHIFT > w)

/-- Modelled from the spec: mul_ext of utilities-mod, whose implementation is
    not under src/ (only the utilities-mod.h declaration is). Spec section 6:
    "mul_ext(a, b, *high, *low) — produces the full 2·WORD_BITS-bit product
    split into two words". -/
def mul_ext (w a b : Nat) : Nat × Nat := (a * b / 2 ^ w, a * b % 2 ^ w)

/-- mul_alpha_sz_max of ht-divchn.c: multiply n by the load factor bound
    alpha_n / 2 ^ log_alpha_d, saturating at the maximal word value. The
    left shift of the high word and the final add are size_t operations,
    hence the reductions mod 2 ^ w. -/
def mul_alpha_sz_max (w n alpha_n log_alpha_d : Nat) : Nat :=
  let hl := mul_ext w n alpha_n
  if hl.1 >>> log_alpha_d ≠ 0 then 2 ^ w - 1
  else (hl.2 >>> log_alpha_d + (hl.1 <<< (w - log_alpha_d)) % 2 ^ w) % 2 ^ w

/-- Little-endian value of a byte list: the running sum built by the
    std_key += buf[i] << (i * C_BYTE_BIT) folds of convert_std_key over one
    zero-padded buffer; also "the key read as a little-endian integer". -/
def leVal : List Nat → Nat
  | [] => 0
  | b :: t => b + 256 * leVal t

/-- Sum of the little-endian values of cnt consecutive bsz-byte chunks: the
    full-word-chunk loop of convert_std_key. -/
def chunkSum (bsz : Nat) : Nat → List Nat → Nat
  | 0, _ => 0
  | cnt + 1, l => leVal (l.take bsz) + chunkSum bsz cnt (l.drop bsz)

/-- convert_std_key of ht-divchn.c with no rdc_key callback, on a host with
    8-bit bytes and bsz = sizeof(size_t): the key_size mod bsz remainder
    bytes are folded first through the zero-initialised buffer, then each
    full word-sized chunk; the running sum is a size_t, i.e. lives mod
    2 ^ (8 * bsz). -/
def convert_std_key (bsz : Nat) (key : List Nat) : Nat :=
  let sz_count := key.length / bsz
  let rem_size := key.length - sz_count * bsz
  (leVal (key.take rem_size) + chunkSum bsz sz_count (key.drop rem_size))
    % 2 ^ (8 * bsz)

/-- A chain node: (key bytes, element bytes). -/
abbrev Node := List Nat × List Nat

/-- A chain in forward order from the bucket head. -/
abbrev Chain := List Node

/-- The ht_divchn_t table state restricted to the fields the claims concern.
    The dll plumbing (the ll struct, element alignment) is layout machinery
    with no observable effect on the modelled values and is elided. -/
structure HTState where
  count : Nat
  count_ix : Nat
  group_ix : Nat
  num_elts : Nat
  max_num_elts : Nat
  alpha_n : Nat
  log_alpha_d : Nat
  key_elts : List Chain
deriving DecidableEq

/-- hash of ht-divchn.c, abstracted over the key-to-word conversion f
    (convert_std_key, or a user rdc_key): slot index = word mod count. -/
def hash (f : List Nat → Nat) (s : HTState) (key : List Nat) : Nat :=
  f key % s.count

/-- incr_count of ht-divchn.c: advance the ladder; returns the C int result
    as a Bool together with the updated table. count_ix is a size_t, so its
    increment is mod 2 ^ w and C_SIZE_MAX is 2 ^ w - 1. -/
def incr_count (w : Nat) (s : HTState) : Bool × HTState :=
  let ix1 := (s.count_ix + C_PARTS_PER_PRIME.getD s.group_ix 0) % 2 ^ w
  let g1 := if ix1 = C_PARTS_ACC_COUNTS.getD s.group_ix 0 then s.group_ix + 1
            else s.group_ix
  if ix1 = C_PRIME_PARTS_COUNT then
    (false, { s with count_ix := ix1, group_ix := g1 })
  else if is_overflow w ix1 (C_PARTS_PER_PRIME.getD g1 0) then
    (false, { s with count_ix := 2 ^ w - 1, group_ix := g1 })
  else
    let c := build_prime w ix1 (C_PARTS_PER_PRIME.getD g1 0)
    (true,
      { s with
          count_ix := ix1
          group_ix := g1
          count := c
          max_num_elts := mul_alpha_sz_max w c s.alpha_n s.log_alpha_d })

/-- The while (cond && incr_count(ht)) loops of ht_divchn_init and ht_grow.
    The C loop terminates because every successful incr_count strictly
    increases count_ix, which from any reachable ladder position hits
    C_PRIME_PARTS_COUNT or the overflow mark within C_PRIME_PARTS_COUNT
    steps; the fuel argument makes the model total, and
    C_PRIME_PARTS_COUNT + 1 units are never exhausted from such positions. -/
def incr_loop (w : Nat) (cond : HTState → Bool) : Nat → HTState → HTState
  | 0, s => s
  | fuel + 1, s =>
    if cond s then
      match incr_count w s with
      | (true, s') => incr_loop w cond fuel s'
      | (false, s') => s'
    else s

/-- Fuel sufficient for every reachable ladder position. -/
def C_LOOP_FUEL : Nat := C_PRIME_PARTS_COUNT + 1

/-- ht_divchn_init of ht-divchn.c (key_size/elt_size, the callbacks and the
    allocation plumbing elided). dll_init sets every bucket head to NULL, so
    the final bucket array is count empty chains. The C code assigns
    num_elts = 0 after its while loop; the loop neither reads nor writes
    num_elts, so the field is 0 from the start here. -/
def ht_divchn_init (w min_num alpha_n log_alpha_d : Nat) : HTState :=
  let c0 := build_prime w 0 (C_PARTS_PER_PRIME.getD 0 0)
  let s0 : HTState :=
    { count := c0, count_ix := 0, group_ix := 0, num_elts := 0,
      max_num_elts := mul_alpha_sz_max w c0 alpha_n log_alpha_d,
      alpha_n := alpha_n, log_alpha_d := log_alpha_d, key_elts := [] }
  let s1 := incr_loop w (fun t => decide (t.max_num_elts < min_num)) C_LOOP_FUEL s0
  { s1 with key_elts := List.replicate s1.count [] }

/- ht_divchn_align_elt only records the element alignment used by the dll
   layout; it has no observable effect on the modelled state, so it is not
   modelled. -/

/-- One step of the rehash loop of ht_grow: dll_remove the old chain head
    and dll_prepend it to the new bucket selected by the new modulus. -/
def place (f : List Nat → Nat) (cnt : Nat) (acc : List Chain) (n : Node) :
    List Chain :=
  acc.set (f n.1 % cnt) (n :: acc.getD (f n.1 % cnt) [])

/-- The rehash phase of ht_grow: the new bucket array starts as cnt NULL
    heads; for each old bucket in index order, while the chain is non-empty
    the head node is unlinked and prepended to its new bucket. -/
def rethread (f : List Nat → Nat) (cnt : Nat) (buckets : List Chain) :
    List Chain :=
  buckets.foldl (fun acc chain => chain.foldl (place f cnt) acc)
    (List.replicate cnt ([] : Chain))

/-- ht_grow of ht-divchn.c: raise the count via the while loop; if the load
    factor was not lowered (count unchanged) return, otherwise allocate the
    new bucket array and rethread every node. -/
def ht_grow (w : Nat) (f : List Nat → Nat) (s : HTState) : HTState :=
  let prev_count := s.count
  let s1 := incr_loop w (fun t => decide (t.max_num_elts < t.num_elts))
    C_LOOP_FUEL s
  if prev_count = s1.count then s1
  else { s1 with key_elts := rethread f s1.count s1.key_elts }

/-- The grow test at the end of ht_divchn_insert: grow only if num_elts
    exceeds max_num_elts and count_ix is neither C_SIZE_MAX nor
    C_PRIME_PARTS_COUNT. -/
def grow_check (w : Nat) (f : List Nat → Nat) (s : HTState) : HTState :=
  if s.max_num_elts < s.num_elts ∧ s.count_ix ≠ 2 ^ w - 1 ∧
      s.count_ix ≠ C_PRIME_PARTS_COUNT then
    ht_grow w f s
  else s

/-- The element regions the destructor is applied to (free_elt is invoked
    on a region exactly when the call site passes a non-NULL free_elt). -/
def freeLog (hasFree : Bool) (elt : List Nat) : List (List Nat) :=
  if hasFree then [elt] else []

/-- ht_divchn_insert of ht-divchn.c with the default (memcmp) key
    comparison; hasFree tells whether the table's free_elt is non-NULL.
    The chain layer is the dll variant consumed by ht-divchn (not under
    src/): per spec section 4.3 and dll.c, search scans forward from the
    head for the first byte-equal key, prepend_new makes the new node the
    head, and on a match the destructor runs on the stored element region
    before the new element bytes are copied over it in place. Returns the
    new state and the destructor log. -/
def ht_divchn_insert (w : Nat) (f : List Nat → Nat) (hasFree : Bool)
    (s : HTState) (key elt : List Nat) : HTState × List (List Nat) :=
  let ix := hash f s key
  let chain := s.key_elts.getD ix []
  match chain.findIdx? (fun n => n.1 == key) with
  | none =>
    (grow_check w f
      { s with
          key_elts := s.key_elts.set ix ((key, elt) :: chain)
          num_elts := s.num_elts + 1 },
     [])
  | some i =>
    let n := chain.getD i ([], [])
    (grow_check w f
      { s with key_elts := s.key_elts.set ix (chain.set i (n.1, elt)) },
     freeLog hasFree n.2)

/-- ht_divchn_search of ht-divchn.c: the element region of the first node
    with a byte-equal key in the hashed slot, or NULL. -/
def ht_divchn_search (f : List Nat → Nat) (s : HTState) (key : List Nat) :
    Option (List Nat) :=
  ((s.key_elts.getD (hash f s key) []).find? (fun n => n.1 == key)).map
    (fun n => n.2)

/-- ht_divchn_remove of ht-divchn.c: if the key is found, copy the element
    region out, dll_delete the node with NULL as free_elt (the destructor is
    not invoked), and decrement num_elts; otherwise nothing changes and the
    out block is untouched (out = none). Returns (state, out, destructor
    log). -/
def ht_divchn_remove (f : List Nat → Nat) (s : HTState) (key : List Nat) :
    HTState × Option (List Nat) × List (List Nat) :=
  let ix := hash f s key
  let chain := s.key_elts.getD ix []
  match chain.findIdx? (fun n => n.1 == key) with
  | none => (s, none, [])
  | some i =>
    ({ s with
         key_elts := s.key_elts.set ix (chain.eraseIdx i)
         num_elts := s.num_elts - 1 },
     some (chain.getD i ([], [])).2,
     freeLog false (chain.getD i ([], [])).2)

/-- ht_divchn_delete of ht-divchn.c: if the key is found, dll_delete the
    node with the table's free_elt and decrement num_elts. Returns (state,
    destructor log). -/
def ht_divchn_delete (f : List Nat → Nat) (hasFree : Bool) (s : HTState)
    (key : List Nat) : HTState × List (List Nat) :=
  let ix := hash f s key
  let chain := s.key_elts.getD ix []
  match chain.findIdx? (fun n => n.1 == key) with
  | none => (s, [])
  | some i =>
    ({ s with
         key_elts := s.key_elts.set ix (chain.eraseIdx i)
         num_elts := s.num_elts - 1 },
     freeLog hasFree (chain.getD i ([], [])).2)

/-- All nodes of the table, bucket by bucket. -/
def nodesOf (s : HTState) : Chain := s.key_elts.flatten

/-- No node of the table carries the key. -/
def NotPresent (s : HTState) (key : List Nat) : Prop :=
  ∀ n ∈ nodesOf s, ¬n.1 = key

/-- Some node of the table carries the key. -/
def Present (s : HTState) (key : List Nat) : Prop :=
  ∃ n ∈ nodesOf s, n.1 = key

/-- Spec invariant 2 / claim C7: the bucket array has length count and every
    node reachable from bucket i hashes to i under the current modulus. -/
def WellB (f : List Nat → Nat) (s : HTState) : Prop :=
  s.key_elts.length = s.count ∧
  ∀ i (h : i < s.key_elts.length), ∀ n ∈ s.key_elts[i],
    f n.1 % s.count = i

/-- The chains of a bucket array of length cnt are well bucketed for f. -/
def BucketsOK (f : List Nat → Nat) (cnt : Nat) (acc : List Chain) : Prop :=
  ∀ i (h : i < acc.length), ∀ n ∈ acc[i], f n.1 % cnt = i

/-- Spec invariant 5 / claim C3: if the live-key count exceeds max_num_elts
    the ladder is saturated (count_ix = C_SIZE_MAX) or exhausted
    (count_ix = C_PRIME_PARTS_COUNT). -/
def CountInv (w : Nat) (s : HTState) : Prop :=
  s.num_elts ≤ s.max_num_elts ∨ s.count_ix = 2 ^ w - 1 ∨
    s.count_ix = C_PRIME_PARTS_COUNT

/-- The 54 (group_ix, count_ix) pairs that address a prime of the ladder:
    group 0 holds 6 one-part primes at offsets 0..5, then 16 two-part,
    16 three-part and 16 four-part primes. -/
def ladderStarts : List (Nat × Nat) :=
  [(0, 0), (0, 1), (0, 2), (0, 3), (0, 4), (0, 5), (1, 6), (1, 8), (1, 10),
   (1, 12), (1, 14), (1, 16), (1, 18), (1, 20), (1, 22), (1, 24), (1, 26),
   (1, 28), (1, 30), (1, 32), (1, 34), (1, 36), (2, 38), (2, 41), (2, 44),
   (2, 47), (2, 50), (2, 53), (2, 56), (2, 59), (2, 62), (2, 65), (2, 68),
   (2, 71), (2, 74), (2, 77), (2, 80), (2, 83), (3, 86), (3, 90), (3, 94),
   (3, 98), (3, 102), (3, 106), (3, 110), (3, 114), (3, 118), (3, 122), (3,
   126), (3, 130), (3, 134), (3, 138), (3, 142), (3, 146)]

/-- (group_ix, count_ix) addresses a prime of the ladder. -/
def validPosB (g ix : Nat) : Bool :=
  ladderStarts.any (fun p => p.1 == g && p.2 == ix)

/-- The ladder fields of the table are a valid prime position or one of the
    two terminal markers. -/
def LadderInv (w : Nat) (s : HTState) : Prop :=
  validPosB s.group_ix s.count_ix = true ∨ s.count_ix = 2 ^ w - 1 ∨
    s.count_ix = C_PRIME_PARTS_COUNT

/-- The primes of the ladder on a 64-bit host, reconstructed by
    build_prime at every valid position. -/
def ladderPrimes : List Nat :=
  ladderStarts.map (fun p => build_prime 64 p.2 (C_PARTS_PER_PRIME.getD p.1 0))

/-- The prime values documented in the C_PRIME_PARTS comments of
    ht-divchn.c. -/
def docPrimes : List Nat :=
  [1543, 3119, 6211, 12343, 23981, 48673, 88843, 186581, 377369, 786551, 
   1483331, 3219497, 6278177, 12538919, 25166719, 51331771, 112663669, 
   211326637, 412653239, 785367311, 1611612763, 3221225479, 6442451311, 
   12881269573, 25542415651, 51713873269, 119353582331, 211752305939, 
   417969972941, 817459404833, 1621224516137, 3253374675631, 6594291673951, 
   13349461912351, 26380589320219, 52758518323127, 118691918825723, 
   214182177768131, 419189283369523, 832735214133421, 1672538661088171, 
   3158576518771277, 6692396525189279, 13791536538127669, 26532115188884581, 
   55793289756397591, 113545326073368661, 217449629757435791, 
   431794910914467367, 841413987972987841, 1755714234418853843, 
   3358355678469146183, 6884922145916737697, 15769474759331449193]

/-- The claim C1 word formula: sum over all byte positions i of byte i
    shifted left by (i * 8 mod WORD_BITS), taken mod 2 ^ WORD_BITS. -/
def specShiftSum (bsz : Nat) (key : List Nat) : Nat :=
  ((List.range key.length).map
    (fun i => key.getD i 0 * 2 ^ (i * 8 % (8 * bsz)))).sum % 2 ^ (8 * bsz)

/-- The per-byte shift convert_std_key actually applies: bytes below the
    remainder boundary rem = key_size mod bsz keep their positional shift;
    every later byte is shifted by its offset within its word-sized chunk. -/
def chunkShift (rem bsz i : Nat) : Nat :=
  if i < rem then i * 8 else (i - rem) % bsz * 8

/-- Byte-indexed form of the word convert_std_key folds a key into. -/
def byteFoldSum (bsz : Nat) (key : List Nat) : Nat :=
  ((List.range key.length).map
    (fun i => key.getD i 0 * 2 ^ chunkShift (key.length % bsz) bsz i)).sum
    % 2 ^ (8 * bsz)

/-- The claim C9 sum form of build_prime: parts added (instead of OR-ed) at
    shifts of 16 bits. -/
def build_prime_sum (w start count : Nat) : Nat :=
  (List.range count).foldl
    (fun p i =>
      p + (C_PRIME_PARTS.getD (start + i) 0 <<< (i * C_BUILD_SHIFT)) % 2 ^ w)
    0

end HtDivchn

namespace Dll

/-- memcmp equality over the first ks bytes of two key regions (dll.c
    compares key_size bytes). -/
def memcmpEq (ks : Nat) (a b : List Nat) : Bool :=
  a.take ks == b.take ks

/-- The while (node != *head) loop of dll_search_key in dll.c: the ring is
    the list of nodes in next order with index 0 the head, so the successor
    of index i is (i + 1) % length. The loop starts at the head's successor
    and stops when it returns to index 0. One unit of fuel per visited node;
    fuel = length is never exhausted because the scan stops after at most
    length - 1 steps. -/
def searchAux (nodes : List HtDivchn.Node) (key : List Nat) (ks : Nat) :
    Nat → Nat → Option Nat
  | _, 0 => none
  | i, fuel + 1 =>
    if i = 0 then none
    else if memcmpEq ks (nodes.getD i ([], [])).1 key then some i
    else searchAux nodes key ks ((i + 1) % nodes.length) fuel

/-- dll_search_key of dll.c on a chain given as the list of nodes in next
    order from the head: NULL (none) when the list is empty or the key
    pointer is NULL, otherwise the first node around the ring from the head
    whose key region memcmp-equals the probe, identified by its index. -/
def dll_search_key (nodes : List HtDivchn.Node) (key : Option (List Nat))
    (ks : Nat) : Option Nat :=
  match nodes, key with
  | [], _ => none
  | _, none => none
  | n0 :: rest, some k =>
    if memcmpEq ks n0.1 k then some 0
    else searchAux (n0 :: rest) k ks (1 % (n0 :: rest).length)
      (n0 :: rest).length

end Dll

namespace HtDivchn

lemma mul_alpha_eq_min (w n a d : Nat) (hd : d < w) :
    mul_alpha_sz_max w n a d = min (n * a / 2 ^ d) (2 ^ w - 1) := by
  simp only [mul_alpha_sz_max, mul_ext, ne_eq, ite_not, Nat.shiftRight_eq_div_pow,
    Nat.shiftLeft_eq]
  set p := n * a with hp
  have hsplit : 2 ^ d * 2 ^ (w - d) = 2 ^ w := by
    rw [← pow_add]
    congr 1
    omega
  set Pd := 2 ^ d with hPd
  set Pwd := 2 ^ (w - d) with hPwd
  set Pw := 2 ^ w with hPw
  have h2d : 0 < Pd := Nat.pos_pow_of_pos d (by decide)
  have h2w : 0 < Pw := Nat.pos_pow_of_pos w (by decide)
  have h2wd : 0 < Pwd := Nat.pos_pow_of_pos _ (by decide)
  by_cases h : p / Pw / Pd = 0
  · rw [if_pos h]
    have hlt : p / Pw < Pd := by
      by_contra hge
      push_neg at hge
      have h1 : 1 ≤ p / Pw / Pd := (Nat.one_le_div_iff h2d).mpr hge
      omega
    have hmulmod : p / Pw * Pwd % Pw = p / Pw * Pwd := by
      apply Nat.mod_eq_of_lt
      calc p / Pw * Pwd < Pd * Pwd := mul_lt_mul_of_pos_right hlt h2wd
        _ = Pw := hsplit
    rw [hmulmod]
    have hlow : p % Pw / Pd < Pwd := by
      rw [Nat.div_lt_iff_lt_mul h2d]
      calc p % Pw < Pw := Nat.mod_lt _ h2w
        _ = Pwd * Pd := by rw [mul_comm]; exact hsplit.symm
    have hd1 : p / Pw ≤ Pd - 1 := by omega
    have hhigh : p / Pw * Pwd ≤ (Pd - 1) * Pwd := Nat.mul_le_mul_right Pwd hd1
    have hgeom : (Pd - 1) * Pwd = Pw - Pwd := by
      rw [Nat.sub_mul, one_mul, hsplit]
    have hwd_le : Pwd ≤ Pw := by
      rw [hPwd, hPw]
      exact Nat.pow_le_pow_right (by decide) (Nat.sub_le w d)
    have hhigh2 : p / Pw * Pwd ≤ Pw - Pwd := by rw [← hgeom]; exact hhigh
    have hsum : p % Pw / Pd + p / Pw * Pwd ≤ Pw - 1 := by omega
    rw [Nat.mod_eq_of_lt (by omega)]
    have hdiv : p / Pd = p % Pw / Pd + p / Pw * Pwd := by
      conv_lhs => rw [← Nat.div_add_mod p Pw]
      have hrw : Pw * (p / Pw) = p / Pw * Pwd * Pd := by
        rw [mul_assoc, mul_comm Pwd Pd, hsplit, mul_comm]
      rw [hrw, Nat.add_comm, Nat.add_mul_div_right _ _ h2d, Nat.add_comm]
    rw [← hdiv] at hsum ⊢
    exact (Nat.min_eq_left hsum).symm
  · rw [if_neg h]
    have h1 : 0 < p / Pw / Pd := Nat.pos_of_ne_zero h
    have hge : Pd ≤ p / Pw := (Nat.one_le_div_iff h2d).mp h1
    have hfin : Pw ≤ p / Pd := by
      rw [Nat.le_div_iff_mul_le h2d]
      calc Pw * Pd = Pd * Pw := mul_comm _ _
        _ ≤ p / Pw * Pw := Nat.mul_le_mul_right _ hge
        _ ≤ p := Nat.div_mul_le_self p Pw
    exact (Nat.min_eq_right (Nat.le_trans (Nat.sub_le _ _) hfin)).symm

/-- Claim C2, as stated, is false: with M = 2^64 - 1, alpha_n = 1 and
    log_alpha_d = 0 the computation returns the maximal word value although
    no bit of the high half of the full product lies at position 0 or above
    (the high half is zero), so "returns the maximal word value exactly
    when some high bit survives" fails in the only-if direction. -/
theorem claim_C2_counterexample :
    mul_alpha_sz_max 64 (2 ^ 64 - 1) 1 0 = 2 ^ 64 - 1 ∧
    (2 ^ 64 - 1) * 1 / 2 ^ 64 >>> 0 = 0 := by decide

/-- Claim C2 amended: for every modulus M, alpha_n ≥ 1 and
    0 ≤ log_alpha_d < WORD_BITS, mul_alpha_sz_max returns
    floor(M * alpha_n / 2 ^ log_alpha_d) when that value is representable
    in a machine word, and returns the maximal word value whenever (not
    exactly when) some bit of the high half of the full-width product lies
    at position log_alpha_d or above; equivalently the result is always
    min(floor(M * alpha_n / 2 ^ log_alpha_d), 2 ^ WORD_BITS - 1). -/
theorem claim_C2_amended (w M alpha_n log_alpha_d : Nat)
    (ha : 1 ≤ alpha_n) (hd : log_alpha_d < w) :
    (M * alpha_n / 2 ^ log_alpha_d < 2 ^ w →
      mul_alpha_sz_max w M alpha_n log_alpha_d =
        M * alpha_n / 2 ^ log_alpha_d) ∧
    ((M * alpha_n / 2 ^ w) >>> log_alpha_d ≠ 0 →
      mul_alpha_sz_max w M alpha_n log_alpha_d = 2 ^ w - 1) ∧
    mul_alpha_sz_max w M alpha_n log_alpha_d =
      min (M * alpha_n / 2 ^ log_alpha_d) (2 ^ w - 1) := by
  refine ⟨?_, ?_, mul_alpha_eq_min w M alpha_n log_alpha_d hd⟩
  · intro hrep
    rw [mul_alpha_eq_min w M alpha_n log_alpha_d hd]
    exact Nat.min_eq_left (by omega)
  · intro hhigh
    rw [Nat.shiftRight_eq_div_pow] at hhigh
    rw [mul_alpha_eq_min w M alpha_n log_alpha_d hd]
    have h2d : 0 < 2 ^ log_alpha_d := Nat.pos_pow_of_pos _ (by decide)
    have h1 : 0 < M * alpha_n / 2 ^ w / 2 ^ log_alpha_d := Nat.pos_of_ne_zero hhigh
    have hge : 2 ^ log_alpha_d ≤ M * alpha_n / 2 ^ w :=
      (Nat.one_le_div_iff h2d).mp h1
    have hfin : 2 ^ w ≤ M * alpha_n / 2 ^ log_alpha_d := by
      rw [Nat.le_div_iff_mul_le h2d]
      calc 2 ^ w * 2 ^ log_alpha_d = 2 ^ log_alpha_d * 2 ^ w := mul_comm _ _
        _ ≤ M * alpha_n / 2 ^ w * 2 ^ w := Nat.mul_le_mul_right _ hge
        _ ≤ M * alpha_n := Nat.div_mul_le_self _ _
    exact Nat.min_eq_right (Nat.le_trans (Nat.sub_le _ _) hfin)

/-- Witness for claim_C2_amended at w = 64, M = 100, alpha_n = 3,
    log_alpha_d = 3. -/
theorem claim_C2_witness :
    (1 : Nat) ≤ 3 ∧ 3 < 64 ∧
    mul_alpha_sz_max 64 100 3 3 = min (100 * 3 / 2 ^ 3) (2 ^ 64 - 1) :=
  ⟨by decide, by decide, (claim_C2_amended 64 100 3 3 (by decide) (by decide)).2.2⟩

end HtDivchn

namespace HtDivchn

lemma getD_take_of_lt (l : List Nat) {i n : Nat} (h : i < n) :
    (l.take n).getD i 0 = l.getD i 0 := by
  rw [List.getD_eq_getElem?_getD, List.getD_eq_getElem?_getD,
    List.getElem?_take_of_lt h]

lemma getD_drop (l : List Nat) (n i : Nat) :
    (l.drop n).getD i 0 = l.getD (n + i) 0 := by
  rw [List.getD_eq_getElem?_getD, List.getD_eq_getElem?_getD,
    List.getElem?_drop]

lemma leVal_eq_mapSum (l : List Nat) :
    leVal l = ((List.range l.length).map (fun i => l.getD i 0 * 2 ^ (i * 8))).sum := by
  induction l with
  | nil => simp [leVal]
  | cons b t ih =>
    show b + 256 * leVal t = _
    have hlen : (b :: t).length = 1 + t.length := by
      simp [List.length_cons, Nat.add_comm]
    rw [hlen, List.range_add, List.map_append, List.sum_append, List.map_map]
    have h0 : ((List.range 1).map (fun i => (b :: t).getD i 0 * 2 ^ (i * 8))).sum
        = b := by
      have hr1 : List.range 1 = [0] := by decide
      rw [hr1]
      simp
    rw [h0]
    have hfun : ∀ i ∈ List.range t.length,
        ((fun i => (b :: t).getD i 0 * 2 ^ (i * 8)) ∘ (1 + ·)) i =
          256 * (t.getD i 0 * 2 ^ (i * 8)) := by
      intro i _
      simp only [Function.comp_apply]
      have h1 : (b :: t).getD (1 + i) 0 = t.getD i 0 := by
        rw [Nat.add_comm 1 i]
        simp
      have h2 : (1 + i) * 8 = i * 8 + 8 := by ring
      rw [h1, h2, pow_add]
      ring
    rw [List.map_congr_left hfun, List.sum_map_mul_left, ← ih]

lemma chunkSum_eq_mapSum (bsz : Nat) :
    ∀ (c : Nat) (l : List Nat), l.length = c * bsz →
    chunkSum bsz c l =
      ((List.range (c * bsz)).map (fun j => l.getD j 0 * 2 ^ (j % bsz * 8))).sum := by
  intro c
  induction c with
  | zero => intro l _; simp [chunkSum]
  | succ c ih =>
    intro l hl
    show leVal (l.take bsz) + chunkSum bsz c (l.drop bsz) = _
    have hble : bsz ≤ l.length := by
      rw [hl, Nat.succ_mul]
      omega
    have hlen_take : (l.take bsz).length = bsz := by
      rw [List.length_take]
      omega
    have htake : leVal (l.take bsz) =
        ((List.range bsz).map (fun i => l.getD i 0 * 2 ^ (i % bsz * 8))).sum := by
      rw [leVal_eq_mapSum, hlen_take]
      refine congrArg List.sum (List.map_congr_left ?_)
      intro i hi
      rw [List.mem_range] at hi
      rw [getD_take_of_lt l hi, Nat.mod_eq_of_lt hi]
    have hdroplen : (l.drop bsz).length = c * bsz := by
      rw [List.length_drop, hl, Nat.succ_mul]
      omega
    have hdrop : chunkSum bsz c (l.drop bsz) =
        ((List.range (c * bsz)).map
          (fun j => l.getD (bsz + j) 0 * 2 ^ ((bsz + j) % bsz * 8))).sum := by
      rw [ih (l.drop bsz) hdroplen]
      refine congrArg List.sum (List.map_congr_left ?_)
      intro j _
      rw [getD_drop, Nat.add_mod_left]
    have hsplit : (c + 1) * bsz = bsz + c * bsz := by
      rw [Nat.succ_mul]
      omega
    rw [htake, hdrop, hsplit, List.range_add, List.map_append, List.sum_append,
      List.map_map]
    rfl

lemma convert_eq_byteFoldSum (bsz : Nat) (key : List Nat) (hb : 0 < bsz) :
    convert_std_key bsz key = byteFoldSum bsz key := by
  simp only [convert_std_key, byteFoldSum]
  set szc := key.length / bsz with hszc
  set rem := key.length % bsz with hremdef
  have hdm : szc * bsz + rem = key.length := by
    rw [hszc, hremdef]
    exact Nat.div_add_mod' key.length bsz
  have hrem : key.length - szc * bsz = rem := by omega
  rw [hrem]
  congr 1
  have hlen : key.length = rem + szc * bsz := by omega
  have hrem_le : rem ≤ key.length := by omega
  have htake : leVal (key.take rem) =
      ((List.range rem).map
        (fun i => key.getD i 0 * 2 ^ chunkShift rem bsz i)).sum := by
    rw [leVal_eq_mapSum, List.length_take, Nat.min_eq_left hrem_le]
    refine congrArg List.sum (List.map_congr_left ?_)
    intro i hi
    rw [List.mem_range] at hi
    rw [getD_take_of_lt key hi, chunkShift, if_pos hi]
  have hdroplen : (key.drop rem).length = szc * bsz := by
    rw [List.length_drop]
    omega
  have hdrop : chunkSum bsz szc (key.drop rem) =
      ((List.range (szc * bsz)).map
        (fun j => key.getD (rem + j) 0 * 2 ^ chunkShift rem bsz (rem + j))).sum := by
    rw [chunkSum_eq_mapSum bsz szc (key.drop rem) hdroplen]
    refine congrArg List.sum (List.map_congr_left ?_)
    intro j _
    rw [getD_drop, chunkShift, if_neg (by omega)]
    have hj : rem + j - rem = j := by omega
    rw [hj]
  rw [htake, hdrop]
  conv_rhs => rw [hlen]
  rw [List.range_add, List.map_append, List.sum_append, List.map_map]
  rfl

/-- Claim C1, as stated, is false on keys longer than a machine word: on a
    64-bit host (bsz = 8) the 9-byte key 00 00 00 00 00 00 00 00 01 is
    folded by convert_std_key to 2^56 (the remainder byte is folded first,
    then the full word chunk), while the claimed per-byte formula with
    shifts i * 8 mod 64 yields 1 and the key read as a little-endian
    integer mod 2^64 yields 0. -/
theorem claim_C1_counterexample :
    convert_std_key 8 [0, 0, 0, 0, 0, 0, 0, 0, 1] ≠
      specShiftSum 8 [0, 0, 0, 0, 0, 0, 0, 0, 1] ∧
    convert_std_key 8 [0, 0, 0, 0, 0, 0, 0, 0, 1] ≠
      leVal [0, 0, 0, 0, 0, 0, 0, 0, 1] % 2 ^ (8 * 8) := by decide

/-- Claim C1 amended: with no reducer callback the word convert_std_key
    folds a key into is the byte-indexed sum in which the first
    key_size mod bsz bytes keep their little-endian positional shifts and
    every later byte is shifted by 8 times its offset within its word-sized
    chunk, all mod 2^WORD_BITS; the claimed formula (per-byte shifts
    i * 8 mod WORD_BITS, equivalently the key as a little-endian integer
    mod 2^WORD_BITS) is recovered exactly when the key is at most one word
    long; the bucket index is always the folded word mod the current
    modulus. -/
theorem claim_C1_amended (bsz : Nat) (key : List Nat) (hb : 0 < bsz) :
    convert_std_key bsz key = byteFoldSum bsz key ∧
    (key.length ≤ bsz →
      convert_std_key bsz key = leVal key % 2 ^ (8 * bsz) ∧
      convert_std_key bsz key = specShiftSum bsz key) ∧
    (∀ s : HTState, hash (convert_std_key bsz) s key =
      convert_std_key bsz key % s.count) := by
  refine ⟨convert_eq_byteFoldSum bsz key hb, fun hlen => ⟨?_, ?_⟩, fun s => rfl⟩
  · simp only [convert_std_key]
    rcases Nat.lt_or_ge key.length bsz with hlt | hge
    · have hszc : key.length / bsz = 0 := Nat.div_eq_of_lt hlt
      rw [hszc]
      simp [chunkSum, List.take_of_length_le (Nat.le_refl _)]
    · have heq : key.length = bsz := Nat.le_antisymm hlen hge
      have hszc : key.length / bsz = 1 := by
        rw [heq, Nat.div_self hb]
      rw [hszc]
      have hrem : key.length - 1 * bsz = 0 := by omega
      rw [hrem]
      simp only [List.take_zero, List.drop_zero, leVal]
      show (0 + (leVal (key.take bsz) + chunkSum bsz 0 (key.drop bsz))) % _ = _
      rw [List.take_of_length_le (by omega)]
      simp [chunkSum]
  · rw [convert_eq_byteFoldSum bsz key hb]
    simp only [byteFoldSum, specShiftSum]
    congr 1
    refine congrArg List.sum (List.map_congr_left ?_)
    intro i hi
    rw [List.mem_range] at hi
    have hilt : i < bsz := Nat.lt_of_lt_of_le hi hlen
    have h1 : chunkShift (key.length % bsz) bsz i = i * 8 := by
      rcases Nat.lt_or_ge i (key.length % bsz) with h | h
      · rw [chunkShift, if_pos h]
      · have hmod : key.length % bsz = key.length ∨ key.length % bsz = 0 := by
          rcases Nat.lt_or_ge key.length bsz with hlt | hge
          · exact Or.inl (Nat.mod_eq_of_lt hlt)
          · have : key.length = bsz := Nat.le_antisymm hlen hge
            exact Or.inr (by rw [this, Nat.mod_self])
        rcases hmod with hm | hm
        · rw [chunkShift, if_neg (by omega)]
          have hi0 : i = key.length := by omega
          omega
        · rw [chunkShift, if_neg (by omega), hm, Nat.sub_zero,
            Nat.mod_eq_of_lt hilt]
    have h2 : i * 8 % (8 * bsz) = i * 8 := by
      apply Nat.mod_eq_of_lt
      calc i * 8 < bsz * 8 := by omega
        _ = 8 * bsz := Nat.mul_comm _ _
    rw [h1, h2]

/-- Witness for claim_C1_amended at bsz = 8 with a 9-byte key. -/
theorem claim_C1_witness :
    0 < 8 ∧
    convert_std_key 8 [0, 0, 0, 0, 0, 0, 0, 0, 1] =
      byteFoldSum 8 [0, 0, 0, 0, 0, 0, 0, 0, 1] :=
  ⟨by decide, (claim_C1_amended 8 [0, 0, 0, 0, 0, 0, 0, 0, 1] (by decide)).1⟩

end HtDivchn

namespace HtDivchn

/-- Claim C9: for every ladder position valid on a 64-bit host (all 54),
    build_prime reconstructs the prime by OR-ing the group's 16-bit parts at
    shifts 0, 16, 32, 48, the OR equals the plain sum of the shifted parts,
    and the reconstructed values are exactly the primes documented in the
    C_PRIME_PARTS comments; in particular the ladder's first modulus is
    1543. -/
theorem claim_C9 :
    (∀ n, n < 54 →
      build_prime 64 (ladderStarts.getD n (0, 0)).2
          (C_PARTS_PER_PRIME.getD (ladderStarts.getD n (0, 0)).1 0) =
        docPrimes.getD n 0 ∧
      build_prime 64 (ladderStarts.getD n (0, 0)).2
          (C_PARTS_PER_PRIME.getD (ladderStarts.getD n (0, 0)).1 0) =
        build_prime_sum 64 (ladderStarts.getD n (0, 0)).2
          (C_PARTS_PER_PRIME.getD (ladderStarts.getD n (0, 0)).1 0)) ∧
    build_prime 64 0 1 = 1543 := by decide

/-- Witness for claim_C9 at ladder position 0. -/
theorem claim_C9_witness :
    build_prime 64 (ladderStarts.getD 0 (0, 0)).2
        (C_PARTS_PER_PRIME.getD (ladderStarts.getD 0 (0, 0)).1 0) =
      docPrimes.getD 0 0 :=
  (claim_C9.1 0 (by decide)).1

end HtDivchn

namespace Dll

lemma searchAux_zero (nodes : List HtDivchn.Node) (k : List Nat) (ks fuel : Nat) :
    searchAux nodes k ks 0 fuel = none := by
  cases fuel <;> simp [searchAux]

lemma searchAux_eq (nodes : List HtDivchn.Node) (k : List Nat) (ks : Nat) :
    ∀ (fuel i : Nat), 1 ≤ i → i < nodes.length → nodes.length ≤ i + fuel →
    searchAux nodes k ks i fuel =
      (nodes.drop i).findIdx? (fun n => memcmpEq ks n.1 k) i := by
  intro fuel
  induction fuel with
  | zero => intro i _ h2 h3; omega
  | succ fuel ih =>
    intro i h1 h2 h3
    have hi0 : ¬i = 0 := by omega
    rw [searchAux, if_neg hi0]
    rw [List.drop_eq_getElem_cons h2, List.findIdx?_cons,
      List.getD_eq_getElem nodes ([], []) h2]
    by_cases hm : memcmpEq ks nodes[i].1 k
    · rw [if_pos hm, if_pos hm]
    · rw [if_neg hm]
      simp only [hm, if_false]
      rcases Nat.lt_or_ge (i + 1) nodes.length with hlt | hge
      · rw [Nat.mod_eq_of_lt hlt]
        exact ih (i + 1) (by omega) hlt (by omega)
      · have hlen : nodes.length = i + 1 := by omega
        rw [hlen, Nat.mod_self, searchAux_zero]
        have : nodes.drop (i + 1) = [] := by
          apply List.drop_eq_nil_of_le
          omega
        rw [this, List.findIdx?_nil]
        simp

/-- Claim C10: on a chain given as its node list in next order from the
    head, dll_search_key of dll.c returns NULL when the list is empty or
    the key pointer is NULL, and otherwise returns the first node scanning
    forward from the head around the ring whose key region memcmp-equals
    the probe, each node being examined at most once (the scan is exactly
    one first-match pass over the node list). -/
theorem claim_C10 (nodes : List HtDivchn.Node) (key : Option (List Nat))
    (ks : Nat) :
    ((nodes = [] ∨ key = none) → dll_search_key nodes key ks = none) ∧
    (∀ k, key = some k →
      dll_search_key nodes key ks =
        nodes.findIdx? (fun n => memcmpEq ks n.1 k)) := by
  constructor
  · rintro (rfl | rfl)
    · cases key <;> rfl
    · cases nodes <;> rfl
  · rintro k rfl
    cases nodes with
    | nil => rfl
    | cons n0 rest =>
      rw [dll_search_key, List.findIdx?_cons]
      by_cases hm : memcmpEq ks n0.1 k
      · rw [if_pos hm, if_pos hm]
      · rw [if_neg hm, if_neg hm]
        cases rest with
        | nil =>
          show searchAux [n0] k ks (1 % 1) 1 = _
          rw [Nat.mod_self, searchAux_zero, List.findIdx?_nil]
        | cons n1 rest' =>
          have hlen : 1 < (n0 :: n1 :: rest').length := by
            simp [List.length_cons]
          have h1 : 1 % (n0 :: n1 :: rest').length = 1 := Nat.mod_eq_of_lt hlen
          show searchAux (n0 :: n1 :: rest') k ks
              (1 % (n0 :: n1 :: rest').length) (n0 :: n1 :: rest').length = _
          rw [h1, searchAux_eq (n0 :: n1 :: rest') k ks
            (n0 :: n1 :: rest').length 1 (by omega) hlen (by omega)]
          rfl

/-- Witness for claim_C10: a two-node ring where the probe matches the
    second node. -/
theorem claim_C10_witness :
    dll_search_key [([1], [2]), ([3], [4])] (some [3]) 1 =
      List.findIdx? (fun n => memcmpEq 1 n.1 [3]) [([1], [2]), ([3], [4])] :=
  (claim_C10 [([1], [2]), ([3], [4])] (some [3]) 1).2 [3] rfl

end Dll

namespace HtDivchn

lemma getD_of_le (l : List Chain) {ix : Nat} (h : l.length ≤ ix) :
    l.getD ix [] = [] := by
  rw [List.getD_eq_getElem?_getD, List.getElem?_eq_none h]
  rfl

lemma mem_getD_mem_nodesOf (s : HTState) (ix : Nat) {n : Node}
    (hn : n ∈ s.key_elts.getD ix []) : n ∈ nodesOf s := by
  rcases Nat.lt_or_ge ix s.key_elts.length with hlt | hge
  · rw [List.getD_eq_getElem _ _ hlt] at hn
    exact List.mem_flatten.mpr ⟨_, List.getElem_mem hlt, hn⟩
  · rw [getD_of_le _ hge] at hn
    cases hn

lemma chain_no_match (s : HTState) (key : List Nat) (hnp : NotPresent s key)
    (ix : Nat) :
    (s.key_elts.getD ix []).findIdx? (fun n => n.1 == key) = none := by
  rw [List.findIdx?_eq_none_iff]
  intro n hn
  have hmem : n ∈ nodesOf s := mem_getD_mem_nodesOf s ix hn
  have hne : ¬n.1 = key := hnp n hmem
  simpa using hne

/-- Claim C6: for a key not present in the table, ht_divchn_remove and
    ht_divchn_delete are no-ops: the returned state is the argument state
    unchanged (count, modulus and all chains), remove reports no element
    copied out (the out block untouched), and neither invokes the
    destructor. -/
theorem claim_C6 (f : List Nat → Nat) (hasFree : Bool) (s : HTState)
    (key : List Nat) (hnp : NotPresent s key) :
    ht_divchn_remove f s key = (s, none, []) ∧
    ht_divchn_delete f hasFree s key = (s, []) := by
  constructor
  · rw [ht_divchn_remove]
    rw [chain_no_match s key hnp (hash f s key)]
  · rw [ht_divchn_delete]
    rw [chain_no_match s key hnp (hash f s key)]

/-- Witness for claim_C6 on a concrete one-bucket table holding one other
    key. -/
theorem claim_C6_witness :
    NotPresent
      { count := 1, count_ix := 0, group_ix := 0, num_elts := 1,
        max_num_elts := 5, alpha_n := 1, log_alpha_d := 0,
        key_elts := [[([7], [8])]] } [9] ∧
    ht_divchn_remove (fun k => k.getD 0 0)
      { count := 1, count_ix := 0, group_ix := 0, num_elts := 1,
        max_num_elts := 5, alpha_n := 1, log_alpha_d := 0,
        key_elts := [[([7], [8])]] } [9] =
      ({ count := 1, count_ix := 0, group_ix := 0, num_elts := 1,
         max_num_elts := 5, alpha_n := 1, log_alpha_d := 0,
         key_elts := [[([7], [8])]] }, none, []) := by
  refine ⟨by unfold NotPresent nodesOf; decide, ?_⟩
  exact (claim_C6 (fun k => k.getD 0 0) true
    { count := 1, count_ix := 0, group_ix := 0, num_elts := 1,
      max_num_elts := 5, alpha_n := 1, log_alpha_d := 0,
      key_elts := [[([7], [8])]] } [9] (by unfold NotPresent nodesOf; decide)).1

end HtDivchn

namespace HtDivchn

lemma place_length (f : List Nat → Nat) (cnt : Nat) (acc : List Chain)
    (n : Node) : (place f cnt acc n).length = acc.length := by
  simp [place]

lemma foldl_place_length (f : List Nat → Nat) (cnt : Nat) :
    ∀ (l : Chain) (acc : List Chain),
    (l.foldl (place f cnt) acc).length = acc.length := by
  intro l
  induction l with
  | nil => intro acc; rfl
  | cons n t ih =>
    intro acc
    show (t.foldl (place f cnt) (place f cnt acc n)).length = _
    rw [ih, place_length]

lemma buckets_set_ok (f : List Nat → Nat) (cnt : Nat) (acc : List Chain)
    (j : Nat) (c : Chain) (hacc : BucketsOK f cnt acc)
    (hc : ∀ n ∈ c, f n.1 % cnt = j) : BucketsOK f cnt (acc.set j c) := by
  intro i h n hn
  have hlen : i < acc.length := by
    rw [List.length_set] at h
    exact h
  rcases eq_or_ne i j with heq | hne
  · subst heq
    rw [List.getElem_set_self] at hn
    exact hc n hn
  · rw [List.getElem_set_ne (Ne.symm hne)] at hn
    exact hacc i hlen n hn

lemma place_ok (f : List Nat → Nat) (cnt : Nat) (acc : List Chain) (n : Node)
    (hacc : BucketsOK f cnt acc) : BucketsOK f cnt (place f cnt acc n) := by
  unfold place
  refine buckets_set_ok f cnt acc (f n.1 % cnt) _ hacc ?_
  intro m hm
  rcases List.mem_cons.mp hm with h1 | h1
  · rw [h1]
  · rcases Nat.lt_or_ge (f n.1 % cnt) acc.length with hlt | hge
    · rw [List.getD_eq_getElem acc [] hlt] at h1
      exact hacc _ hlt m h1
    · rw [getD_of_le acc hge] at h1
      cases h1

lemma foldl_place_ok (f : List Nat → Nat) (cnt : Nat) :
    ∀ (l : Chain) (acc : List Chain), BucketsOK f cnt acc →
    BucketsOK f cnt (l.foldl (place f cnt) acc) := by
  intro l
  induction l with
  | nil => intro acc hacc; exact hacc
  | cons n t ih =>
    intro acc hacc
    show BucketsOK f cnt (t.foldl (place f cnt) (place f cnt acc n))
    exact ih (place f cnt acc n) (place_ok f cnt acc n hacc)

lemma rethread_eq_foldl_flatten (f : List Nat → Nat) (cnt : Nat)
    (buckets : List Chain) :
    rethread f cnt buckets =
      buckets.flatten.foldl (place f cnt) (List.replicate cnt []) := by
  rw [rethread, List.foldl_flatten]

lemma rethread_length (f : List Nat → Nat) (cnt : Nat)
    (buckets : List Chain) : (rethread f cnt buckets).length = cnt := by
  rw [rethread_eq_foldl_flatten, foldl_place_length, List.length_replicate]

lemma rethread_ok (f : List Nat → Nat) (cnt : Nat) (buckets : List Chain) :
    BucketsOK f cnt (rethread f cnt buckets) := by
  rw [rethread_eq_foldl_flatten]
  refine foldl_place_ok f cnt buckets.flatten (List.replicate cnt []) ?_
  intro i h n hn
  rw [List.getElem_replicate] at hn
  cases hn

lemma incr_count_keeps (w : Nat) (s : HTState) :
    (incr_count w s).2.key_elts = s.key_elts ∧
    (incr_count w s).2.num_elts = s.num_elts ∧
    (incr_count w s).2.alpha_n = s.alpha_n ∧
    (incr_count w s).2.log_alpha_d = s.log_alpha_d := by
  rw [incr_count]
  split_ifs <;> exact ⟨rfl, rfl, rfl, rfl⟩

lemma incr_loop_keeps (w : Nat) (cond : HTState → Bool) :
    ∀ (fuel : Nat) (s : HTState),
    (incr_loop w cond fuel s).key_elts = s.key_elts ∧
    (incr_loop w cond fuel s).num_elts = s.num_elts ∧
    (incr_loop w cond fuel s).alpha_n = s.alpha_n ∧
    (incr_loop w cond fuel s).log_alpha_d = s.log_alpha_d := by
  intro fuel
  induction fuel with
  | zero => intro s; exact ⟨rfl, rfl, rfl, rfl⟩
  | succ fuel ih =>
    intro s
    rw [incr_loop]
    by_cases hc : cond s
    · rw [if_pos hc]
      rcases hmatch : incr_count w s with ⟨b, s'⟩
      have hk := incr_count_keeps w s
      rw [hmatch] at hk
      cases b
      · exact hk
      · have := ih s'
        simp only [this.1, this.2.1, this.2.2.1, this.2.2.2]
        exact hk
    · rw [if_neg hc]
      exact ⟨rfl, rfl, rfl, rfl⟩

lemma ht_grow_wellB (w : Nat) (f : List Nat → Nat) (s : HTState)
    (hs : WellB f s) : WellB f (ht_grow w f s) := by
  rw [ht_grow]
  set s1 := incr_loop w (fun t => decide (t.max_num_elts < t.num_elts))
    C_LOOP_FUEL s with hs1
  have hk : s1.key_elts = s.key_elts :=
    (incr_loop_keeps w _ C_LOOP_FUEL s).1
  by_cases hsame : s.count = s1.count
  · rw [if_pos hsame]
    refine ⟨?_, ?_⟩
    · rw [hk, ← hsame]
      exact hs.1
    · intro i h n hn
      rw [← hsame]
      have h' : i < s.key_elts.length := by rw [← hk]; exact h
      refine hs.2 i h' n ?_
      have : s1.key_elts[i] = s.key_elts[i] := by
        congr 1
      rw [← this]
      exact hn
  · rw [if_neg hsame]
    refine ⟨rethread_length f s1.count s1.key_elts, ?_⟩
    intro i h n hn
    have h' : i < (rethread f s1.count s1.key_elts).length := h
    exact rethread_ok f s1.count s1.key_elts i h' n hn

lemma grow_check_wellB (w : Nat) (f : List Nat → Nat) (s : HTState)
    (hs : WellB f s) : WellB f (grow_check w f s) := by
  rw [grow_check]
  split_ifs with hc
  · exact ht_grow_wellB w f s hs
  · exact hs

lemma wellB_iff (f : List Nat → Nat) (t : HTState) :
    WellB f t ↔ t.key_elts.length = t.count ∧ BucketsOK f t.count t.key_elts :=
  Iff.rfl

lemma mem_getD_hash (f : List Nat → Nat) (s : HTState) (hs : WellB f s)
    (j : Nat) : ∀ n ∈ s.key_elts.getD j [], f n.1 % s.count = j := by
  intro n hn
  rcases Nat.lt_or_ge j s.key_elts.length with hlt | hge
  · rw [List.getD_eq_getElem _ _ hlt] at hn
    exact hs.2 j hlt n hn
  · rw [getD_of_le _ hge] at hn
    cases hn

lemma insert_wellB (w : Nat) (f : List Nat → Nat) (hasFree : Bool)
    (s : HTState) (key elt : List Nat) (hs : WellB f s) :
    WellB f (ht_divchn_insert w f hasFree s key elt).1 := by
  rw [ht_divchn_insert]
  split
  · refine grow_check_wellB w f _ ?_
    refine ⟨by rw [List.length_set]; exact hs.1, ?_⟩
    refine buckets_set_ok f s.count s.key_elts (hash f s key) _ hs.2 ?_
    intro n hn
    rcases List.mem_cons.mp hn with h1 | h1
    · rw [h1, hash]
    · exact mem_getD_hash f s hs (hash f s key) n h1
  · rename_i i hfind
    refine grow_check_wellB w f _ ?_
    refine ⟨by rw [List.length_set]; exact hs.1, ?_⟩
    refine buckets_set_ok f s.count s.key_elts (hash f s key) _ hs.2 ?_
    intro n hn
    rcases List.mem_or_eq_of_mem_set hn with h1 | h1
    · exact mem_getD_hash f s hs (hash f s key) n h1
    · obtain ⟨hilt, hp, -⟩ := List.findIdx?_eq_some_iff_getElem.mp hfind
      have hmem : (s.key_elts.getD (hash f s key) []).getD i ([], []) ∈
          s.key_elts.getD (hash f s key) [] := by
        rw [List.getD_eq_getElem _ _ hilt]
        exact List.getElem_mem hilt
      have hhash := mem_getD_hash f s hs (hash f s key) _ hmem
      rw [h1]
      exact hhash

lemma remove_wellB (f : List Nat → Nat) (s : HTState) (key : List Nat)
    (hs : WellB f s) : WellB f (ht_divchn_remove f s key).1 := by
  rw [ht_divchn_remove]
  split
  · exact hs
  · rename_i i hfind
    refine ⟨by rw [List.length_set]; exact hs.1, ?_⟩
    refine buckets_set_ok f s.count s.key_elts (hash f s key) _ hs.2 ?_
    intro n hn
    exact mem_getD_hash f s hs (hash f s key) n (List.mem_of_mem_eraseIdx hn)

lemma delete_wellB (f : List Nat → Nat) (hasFree : Bool) (s : HTState)
    (key : List Nat) (hs : WellB f s) :
    WellB f (ht_divchn_delete f hasFree s key).1 := by
  rw [ht_divchn_delete]
  split
  · exact hs
  · rename_i i hfind
    refine ⟨by rw [List.length_set]; exact hs.1, ?_⟩
    refine buckets_set_ok f s.count s.key_elts (hash f s key) _ hs.2 ?_
    intro n hn
    exact mem_getD_hash f s hs (hash f s key) n (List.mem_of_mem_eraseIdx hn)

lemma init_wellB (w : Nat) (f : List Nat → Nat) (mn an ld : Nat) :
    WellB f (ht_divchn_init w mn an ld) := by
  rw [ht_divchn_init]
  refine ⟨List.length_replicate _ _, ?_⟩
  intro i h n hn
  rw [List.getElem_replicate] at hn
  cases hn

/-- Claim C7: spec invariant 2 is established by init and preserved by
    insert, remove, delete and by ht_grow itself: every node reachable from
    bucket b hashes to b under the current modulus; in particular, after a
    grow every rethreaded node lies in the bucket given by its key's hash
    mod the new modulus (the rethreaded bucket array is well bucketed for
    the new modulus unconditionally). -/
theorem claim_C7 (w : Nat) (f : List Nat → Nat) (hasFree : Bool)
    (s : HTState) (mn an ld : Nat) (k e : List Nat) :
    WellB f (ht_divchn_init w mn an ld) ∧
    (WellB f s → WellB f (ht_divchn_insert w f hasFree s k e).1) ∧
    (WellB f s → WellB f (ht_divchn_remove f s k).1) ∧
    (WellB f s → WellB f (ht_divchn_delete f hasFree s k).1) ∧
    (WellB f s → WellB f (ht_grow w f s)) :=
  ⟨init_wellB w f mn an ld,
   insert_wellB w f hasFree s k e,
   remove_wellB f s k,
   delete_wellB f hasFree s k,
   ht_grow_wellB w f s⟩

/-- Witness for claim_C7 on a concrete two-bucket table. -/
theorem claim_C7_witness :
    WellB (fun k => k.getD 0 0)
      { count := 2, count_ix := 0, group_ix := 0, num_elts := 1,
        max_num_elts := 5, alpha_n := 1, log_alpha_d := 0,
        key_elts := [[], [([1], [9])]] } ∧
    WellB (fun k => k.getD 0 0)
      (ht_divchn_insert 16 (fun k => k.getD 0 0) true
        { count := 2, count_ix := 0, group_ix := 0, num_elts := 1,
          max_num_elts := 5, alpha_n := 1, log_alpha_d := 0,
          key_elts := [[], [([1], [9])]] } [2] [7]).1 :=
  ⟨by unfold WellB; decide,
   (claim_C7 16 (fun k => k.getD 0 0) true
     { count := 2, count_ix := 0, group_ix := 0, num_elts := 1,
       max_num_elts := 5, alpha_n := 1, log_alpha_d := 0,
       key_elts := [[], [([1], [9])]] }
     0 0 0 [2] [7]).2.1 (by unfold WellB; decide)⟩

end HtDivchn

namespace HtDivchn

lemma lor_ne_zero_left (a b : Nat) (h : a ≠ 0) : a ||| b ≠ 0 := by
  obtain ⟨i, hi⟩ := Nat.ne_zero_implies_bit_true h
  intro hz
  have hbit : (a ||| b).testBit i = true := by
    rw [Nat.testBit_or, hi]
    simp
  rw [hz] at hbit
  simp [Nat.zero_testBit] at hbit

lemma foldl_or_ne_zero (g : Nat → Nat) :
    ∀ (l : List Nat) (acc : Nat), acc ≠ 0 →
    l.foldl (fun p i => p ||| g i) acc ≠ 0 := by
  intro l
  induction l with
  | nil => intro acc h; exact h
  | cons x t ih =>
    intro acc h
    exact ih (acc ||| g x) (lor_ne_zero_left acc (g x) h)

set_option maxRecDepth 4000 in
lemma parts_lt_2_16 : ∀ x ∈ C_PRIME_PARTS, x < 2 ^ 16 := by decide

lemma build_prime_pos (w start cnt : Nat) (hw : 16 ≤ w) (hcnt : 0 < cnt)
    (hp : C_PRIME_PARTS.getD start 0 ≠ 0) : 0 < build_prime w start cnt := by
  obtain ⟨c, rfl⟩ : ∃ c, cnt = c + 1 := ⟨cnt - 1, by omega⟩
  rw [build_prime, List.range_succ_eq_map]
  have h2w : C_PRIME_PARTS.getD start 0 < 2 ^ w := by
    rcases Nat.lt_or_ge start C_PRIME_PARTS.length with hlt | hge
    · have hmem : C_PRIME_PARTS.getD start 0 ∈ C_PRIME_PARTS := by
        rw [List.getD_eq_getElem _ _ hlt]
        exact List.getElem_mem hlt
      calc C_PRIME_PARTS.getD start 0 < 2 ^ 16 := parts_lt_2_16 _ hmem
        _ ≤ 2 ^ w := Nat.pow_le_pow_right (by decide) hw
    · rw [List.getD_eq_getElem?_getD, List.getElem?_eq_none hge] at hp
      exact absurd rfl hp
  show 0 < List.foldl _ _ (0 :: _)
  have hstep : (0 : Nat) |||
      (C_PRIME_PARTS.getD (start + 0) 0 <<< (0 * C_BUILD_SHIFT)) % 2 ^ w =
        C_PRIME_PARTS.getD start 0 := by
    rw [Nat.zero_or]
    rw [Nat.mul_comm 0 C_BUILD_SHIFT, Nat.mul_zero, Nat.shiftLeft_zero,
      Nat.add_zero, Nat.mod_eq_of_lt h2w]
  rw [List.foldl_cons, hstep]
  have hne : List.foldl
      (fun p i => p ||| (C_PRIME_PARTS.getD (start + i) 0 <<< (i * C_BUILD_SHIFT)) % 2 ^ w)
      (C_PRIME_PARTS.getD start 0) ((List.range c).map (· + 1)) ≠ 0 :=
    foldl_or_ne_zero _ _ _ hp
  exact Nat.pos_of_ne_zero hne

/-- Per-position facts about advancing the ladder, checked on all 54 valid
    positions: the count_ix update lands on the next valid position or on
    C_PRIME_PARTS_COUNT, the low part of the addressed prime is non-zero,
    and the part counts are positive. -/
lemma ladder_step_facts : ∀ n, n < 54 →
    (ladderStarts.getD n (0, 0)).2 ≤ 146 ∧
    0 < C_PARTS_PER_PRIME.getD (ladderStarts.getD n (0, 0)).1 0 ∧
    ((ladderStarts.getD n (0, 0)).2 +
        C_PARTS_PER_PRIME.getD (ladderStarts.getD n (0, 0)).1 0 ≤ 150) ∧
    ((ladderStarts.getD n (0, 0)).2 +
          C_PARTS_PER_PRIME.getD (ladderStarts.getD n (0, 0)).1 0 = 150 ∨
      (validPosB
          (if (ladderStarts.getD n (0, 0)).2 +
                C_PARTS_PER_PRIME.getD (ladderStarts.getD n (0, 0)).1 0 =
              C_PARTS_ACC_COUNTS.getD (ladderStarts.getD n (0, 0)).1 0 then
              (ladderStarts.getD n (0, 0)).1 + 1
            else (ladderStarts.getD n (0, 0)).1)
          ((ladderStarts.getD n (0, 0)).2 +
            C_PARTS_PER_PRIME.getD (ladderStarts.getD n (0, 0)).1 0) = true ∧
        ((ladderStarts.getD n (0, 0)).2 +
            C_PARTS_PER_PRIME.getD (ladderStarts.getD n (0, 0)).1 0 ≠ 150) ∧
        C_PRIME_PARTS.getD
          ((ladderStarts.getD n (0, 0)).2 +
            C_PARTS_PER_PRIME.getD (ladderStarts.getD n (0, 0)).1 0) 0 ≠ 0 ∧
        0 < C_PARTS_PER_PRIME.getD
          (if (ladderStarts.getD n (0, 0)).2 +
                C_PARTS_PER_PRIME.getD (ladderStarts.getD n (0, 0)).1 0 =
              C_PARTS_ACC_COUNTS.getD (ladderStarts.getD n (0, 0)).1 0 then
              (ladderStarts.getD n (0, 0)).1 + 1
            else (ladderStarts.getD n (0, 0)).1) 0)) := by decide

lemma validPosB_exists (g ix : Nat) (h : validPosB g ix = true) :
    ∃ n, n < 54 ∧ (ladderStarts.getD n (0, 0)).1 = g ∧
      (ladderStarts.getD n (0, 0)).2 = ix := by
  unfold validPosB at h
  rw [List.any_eq_true] at h
  obtain ⟨p, hp, hpe⟩ := h
  obtain ⟨n, hn, hget⟩ := List.mem_iff_getElem.mp hp
  have hlen : ladderStarts.length = 54 := by decide
  simp only [Bool.and_eq_true, beq_iff_eq] at hpe
  refine ⟨n, by omega, ?_, ?_⟩
  · rw [List.getD_eq_getElem _ _ hn, hget]
    exact hpe.1
  · rw [List.getD_eq_getElem _ _ hn, hget]
    exact hpe.2

end HtDivchn

namespace HtDivchn

lemma incr_count_valid (w : Nat) (hw : 16 ≤ w) (s : HTState)
    (hv : validPosB s.group_ix s.count_ix = true) :
    ((incr_count w s).1 = true →
      validPosB (incr_count w s).2.group_ix (incr_count w s).2.count_ix = true ∧
      s.count_ix < (incr_count w s).2.count_ix ∧
      (incr_count w s).2.count_ix ≤ 150 ∧
      0 < (incr_count w s).2.count) ∧
    ((incr_count w s).1 = false →
      ((incr_count w s).2.count_ix = 2 ^ w - 1 ∨
        (incr_count w s).2.count_ix = C_PRIME_PARTS_COUNT) ∧
      (incr_count w s).2.count = s.count) ∧
    s.count_ix ≤ 146 := by
  obtain ⟨n, hn, hg, hix⟩ := validPosB_exists _ _ hv
  have hf := ladder_step_facts n hn
  rw [hg, hix] at hf
  obtain ⟨hle146, hpp, hle150, hstep⟩ := hf
  have h150 : (150 : Nat) < 2 ^ w :=
    Nat.lt_of_lt_of_le (by decide : (150 : Nat) < 2 ^ 16)
      (Nat.pow_le_pow_right (by decide) hw)
  have hmod : (s.count_ix + C_PARTS_PER_PRIME.getD s.group_ix 0) % 2 ^ w =
      s.count_ix + C_PARTS_PER_PRIME.getD s.group_ix 0 :=
    Nat.mod_eq_of_lt (by omega)
  have hppc : C_PRIME_PARTS_COUNT = 150 := by decide
  simp only [incr_count, hmod, hppc]
  rcases hstep with hend | ⟨hvnext, hne, hlow, hppnext⟩
  · rw [if_pos hend]
    refine ⟨fun hcontra => Bool.noConfusion hcontra, fun _ => ⟨?_, rfl⟩, hle146⟩
    exact Or.inr hend
  · rw [if_neg hne]
    by_cases hov : is_overflow w
        (s.count_ix + C_PARTS_PER_PRIME.getD s.group_ix 0)
        (C_PARTS_PER_PRIME.getD
          (if s.count_ix + C_PARTS_PER_PRIME.getD s.group_ix 0 =
              C_PARTS_ACC_COUNTS.getD s.group_ix 0 then s.group_ix + 1
            else s.group_ix) 0) = true
    · rw [if_pos hov]
      exact ⟨fun hcontra => Bool.noConfusion hcontra,
        fun _ => ⟨Or.inl rfl, rfl⟩, hle146⟩
    · rw [if_neg hov]
      have hlt' : s.count_ix <
          s.count_ix + C_PARTS_PER_PRIME.getD s.group_ix 0 := by omega
      refine ⟨fun _ => ⟨hvnext, hlt', hle150, ?_⟩,
        fun hcontra => Bool.noConfusion hcontra, hle146⟩
      exact build_prime_pos w _ _ hw hppnext hlow

lemma incr_loop_valid (w : Nat) (hw : 16 ≤ w) (cond : HTState → Bool) :
    ∀ (fuel : Nat) (s : HTState), validPosB s.group_ix s.count_ix = true →
    150 - s.count_ix < fuel →
    (cond (incr_loop w cond fuel s) = false ∨
      (incr_loop w cond fuel s).count_ix = 2 ^ w - 1 ∨
      (incr_loop w cond fuel s).count_ix = C_PRIME_PARTS_COUNT) ∧
    (validPosB (incr_loop w cond fuel s).group_ix
        (incr_loop w cond fuel s).count_ix = true ∨
      (incr_loop w cond fuel s).count_ix = 2 ^ w - 1 ∨
      (incr_loop w cond fuel s).count_ix = C_PRIME_PARTS_COUNT) ∧
    (0 < s.count → 0 < (incr_loop w cond fuel s).count) := by
  intro fuel
  induction fuel with
  | zero => intro s _ hr; exact absurd hr (Nat.not_lt_zero _)
  | succ fuel ih =>
    intro s hv hr
    rw [incr_loop]
    by_cases hc : cond s = true
    · rw [if_pos hc]
      have hiv := incr_count_valid w hw s hv
      rcases hm : incr_count w s with ⟨b, s'⟩
      rw [hm] at hiv
      dsimp only at hiv
      cases b
      · show (cond s' = false ∨ _) ∧ _
        obtain ⟨hterm, hcount⟩ := hiv.2.1 rfl
        exact ⟨Or.inr hterm, Or.inr hterm, fun hp => hcount ▸ hp⟩
      · show (cond (incr_loop w cond fuel s') = false ∨ _) ∧ _
        obtain ⟨hv', hlt, hle, hpos⟩ := hiv.1 rfl
        have hr' : 150 - s'.count_ix < fuel := by
          have h146 := hiv.2.2
          omega
        have := ih s' hv' hr'
        exact ⟨this.1, this.2.1, fun _ => this.2.2 hpos⟩
    · rw [if_neg hc]
      refine ⟨Or.inl ?_, Or.inl hv, fun hp => hp⟩
      revert hc
      cases cond s <;> simp

lemma ht_grow_post (w : Nat) (f : List Nat → Nat) (s : HTState) (hw : 16 ≤ w)
    (hv : validPosB s.group_ix s.count_ix = true) :
    CountInv w (ht_grow w f s) ∧ LadderInv w (ht_grow w f s) ∧
    (0 < s.count → 0 < (ht_grow w f s).count) ∧
    (ht_grow w f s).num_elts = s.num_elts := by
  rw [ht_grow]
  have hfuel : 150 - s.count_ix < C_LOOP_FUEL := by
    have : C_LOOP_FUEL = 151 := by decide
    omega
  have hl := incr_loop_valid w hw
    (fun t => decide (t.max_num_elts < t.num_elts)) C_LOOP_FUEL s hv hfuel
  set s1 := incr_loop w (fun t => decide (t.max_num_elts < t.num_elts))
    C_LOOP_FUEL s with hs1
  have hnum : s1.num_elts = s.num_elts :=
    (incr_loop_keeps w _ C_LOOP_FUEL s).2.1
  have hcinv : CountInv w s1 := by
    rcases hl.1 with hcond | hterm
    · left
      simpa using of_decide_eq_false hcond
    · right
      exact hterm
  by_cases hsame : s.count = s1.count
  · rw [if_pos hsame]
    exact ⟨hcinv, hl.2.1, fun hp => hl.2.2 hp, hnum⟩
  · rw [if_neg hsame]
    exact ⟨hcinv, hl.2.1, fun hp => hl.2.2 hp, hnum⟩

lemma grow_check_post (w : Nat) (f : List Nat → Nat) (s : HTState)
    (hw : 16 ≤ w) (hL : LadderInv w s) :
    CountInv w (grow_check w f s) ∧ LadderInv w (grow_check w f s) ∧
    (0 < s.count → 0 < (grow_check w f s).count) ∧
    (grow_check w f s).num_elts = s.num_elts := by
  rw [grow_check]
  split_ifs with hgc
  · obtain ⟨h1, h2, h3⟩ := hgc
    have hppc : C_PRIME_PARTS_COUNT = 150 := by decide
    have hv : validPosB s.group_ix s.count_ix = true := by
      rcases hL with h | h | h
      · exact h
      · exact absurd h h2
      · exact absurd h h3
    exact ht_grow_post w f s hw hv
  · refine ⟨?_, hL, fun hp => hp, rfl⟩
    by_cases hA : s.max_num_elts < s.num_elts
    · by_cases hB : s.count_ix = 2 ^ w - 1
      · exact Or.inr (Or.inl hB)
      · by_cases hC : s.count_ix = C_PRIME_PARTS_COUNT
        · exact Or.inr (Or.inr hC)
        · exact absurd ⟨hA, hB, hC⟩ hgc
    · exact Or.inl (Nat.le_of_not_lt hA)

end HtDivchn

namespace HtDivchn

lemma ladderInv_fields (w : Nat) (s t : HTState) (hg : t.group_ix = s.group_ix)
    (hix : t.count_ix = s.count_ix) (hL : LadderInv w s) : LadderInv w t := by
  unfold LadderInv
  rw [hg, hix]
  exact hL

lemma grow_check_fields_post (w : Nat) (f : List Nat → Nat)
    (s t : HTState) (hw : 16 ≤ w) (hg : t.group_ix = s.group_ix)
    (hix : t.count_ix = s.count_ix) (hL : LadderInv w s) :
    CountInv w (grow_check w f t) ∧ LadderInv w (grow_check w f t) :=
  ⟨(grow_check_post w f t hw (ladderInv_fields w s t hg hix hL)).1,
   (grow_check_post w f t hw (ladderInv_fields w s t hg hix hL)).2.1⟩

lemma insert_inv (w : Nat) (f : List Nat → Nat) (hasFree : Bool) (s : HTState)
    (k e : List Nat) (hw : 16 ≤ w) (hL : LadderInv w s) :
    CountInv w (ht_divchn_insert w f hasFree s k e).1 ∧
    LadderInv w (ht_divchn_insert w f hasFree s k e).1 := by
  rw [ht_divchn_insert]
  split
  · exact grow_check_fields_post w f s
      { s with
          key_elts := s.key_elts.set (hash f s k)
            ((k, e) :: s.key_elts.getD (hash f s k) [])
          num_elts := s.num_elts + 1 } hw rfl rfl hL
  · rename_i i hfind
    exact grow_check_fields_post w f s
      { s with
          key_elts := s.key_elts.set (hash f s k)
            ((s.key_elts.getD (hash f s k) []).set i
              (((s.key_elts.getD (hash f s k) []).getD i ([], [])).1, e)) }
      hw rfl rfl hL

lemma remove_countinv (w : Nat) (f : List Nat → Nat) (s : HTState)
    (k : List Nat) (hC : CountInv w s) :
    CountInv w (ht_divchn_remove f s k).1 := by
  rw [ht_divchn_remove]
  split
  · exact hC
  · unfold CountInv at hC ⊢
    dsimp only
    rcases hC with h | h
    · exact Or.inl (by omega)
    · exact Or.inr h

lemma delete_countinv (w : Nat) (f : List Nat → Nat) (hasFree : Bool)
    (s : HTState) (k : List Nat) (hC : CountInv w s) :
    CountInv w (ht_divchn_delete f hasFree s k).1 := by
  rw [ht_divchn_delete]
  split
  · exact hC
  · unfold CountInv at hC ⊢
    dsimp only
    rcases hC with h | h
    · exact Or.inl (by omega)
    · exact Or.inr h

lemma init_inv (w mn an ld : Nat) (hw : 16 ≤ w) :
    CountInv w (ht_divchn_init w mn an ld) ∧
    LadderInv w (ht_divchn_init w mn an ld) := by
  rw [ht_divchn_init]
  have hfuel : 150 - (0 : Nat) < C_LOOP_FUEL := by decide
  set s0 : HTState :=
    { count := build_prime w 0 (C_PARTS_PER_PRIME.getD 0 0), count_ix := 0,
      group_ix := 0, num_elts := 0,
      max_num_elts := mul_alpha_sz_max w
        (build_prime w 0 (C_PARTS_PER_PRIME.getD 0 0)) an ld,
      alpha_n := an, log_alpha_d := ld, key_elts := [] } with hs0
  have hv0 : validPosB s0.group_ix s0.count_ix = true := by
    show validPosB 0 0 = true
    decide
  have hl := incr_loop_valid w hw (fun t => decide (t.max_num_elts < mn))
    C_LOOP_FUEL s0 hv0 (by show (150 : Nat) - 0 < C_LOOP_FUEL; decide)
  set s1 := incr_loop w (fun t => decide (t.max_num_elts < mn)) C_LOOP_FUEL s0
    with hs1
  have hnum : s1.num_elts = s0.num_elts := (incr_loop_keeps w _ C_LOOP_FUEL s0).2.1
  constructor
  · left
    show s1.num_elts ≤ s1.max_num_elts
    rw [hnum]
    exact Nat.zero_le _
  · exact ladderInv_fields w s1 _ rfl rfl hl.2.1

/-- Claim C3: spec invariant 5. A freshly initialised table satisfies it,
    and insert, remove and delete preserve it: after the operation, if
    num_elts exceeds max_num_elts then count_ix is C_SIZE_MAX (saturated) or
    C_PRIME_PARTS_COUNT (exhausted) — equivalently, an insert that pushes
    num_elts above max_num_elts while the ladder can still advance runs
    ht_grow, which either restores num_elts ≤ max_num_elts or leaves the
    ladder saturated/exhausted. The insert case needs the table's ladder
    fields to be a valid or terminal ladder position (LadderInv), which
    init establishes and every operation preserves. -/
theorem claim_C3 (w : Nat) (f : List Nat → Nat) (hasFree : Bool)
    (s : HTState) (k e : List Nat) (mn an ld : Nat) (hw : 16 ≤ w) :
    (CountInv w (ht_divchn_init w mn an ld) ∧
      LadderInv w (ht_divchn_init w mn an ld)) ∧
    (LadderInv w s →
      CountInv w (ht_divchn_insert w f hasFree s k e).1 ∧
      LadderInv w (ht_divchn_insert w f hasFree s k e).1) ∧
    (CountInv w s → CountInv w (ht_divchn_remove f s k).1) ∧
    (CountInv w s → CountInv w (ht_divchn_delete f hasFree s k).1) :=
  ⟨init_inv w mn an ld hw,
   fun hL => insert_inv w f hasFree s k e hw hL,
   remove_countinv w f s k,
   delete_countinv w f hasFree s k⟩

/-- Witness for claim_C3 at w = 16 on a concrete table. -/
theorem claim_C3_witness :
    16 ≤ 16 ∧
    LadderInv 16
      { count := 1543, count_ix := 0, group_ix := 0, num_elts := 3,
        max_num_elts := 5, alpha_n := 1, log_alpha_d := 0,
        key_elts := [[([1], [2])]] } ∧
    CountInv 16
      (ht_divchn_insert 16 (fun k => k.getD 0 0) true
        { count := 1543, count_ix := 0, group_ix := 0, num_elts := 3,
          max_num_elts := 5, alpha_n := 1, log_alpha_d := 0,
          key_elts := [[([1], [2])]] } [4] [5]).1 :=
  ⟨by decide, by unfold LadderInv; decide,
   ((claim_C3 16 (fun k => k.getD 0 0) true
      { count := 1543, count_ix := 0, group_ix := 0, num_elts := 3,
        max_num_elts := 5, alpha_n := 1, log_alpha_d := 0,
        key_elts := [[([1], [2])]] } [4] [5] 0 0 0 (by decide)).2.1
     (by unfold LadderInv; decide)).1⟩

end HtDivchn

namespace HtDivchn

set_option maxRecDepth 8000 in
/-- Per-position ladder arithmetic on a 64-bit host, checked for the 53
    non-final valid positions: the count_ix/group_ix update lands on the
    next valid position, no overflow occurs, and build_prime yields the
    next ladder prime. -/
lemma ladder_step64 : ∀ n, n < 53 →
    ((ladderStarts.getD n (0, 0)).2 +
        C_PARTS_PER_PRIME.getD (ladderStarts.getD n (0, 0)).1 0 ≤ 150) ∧
    ((ladderStarts.getD n (0, 0)).2 +
        C_PARTS_PER_PRIME.getD (ladderStarts.getD n (0, 0)).1 0 =
      (ladderStarts.getD (n + 1) (0, 0)).2) ∧
    ((if (ladderStarts.getD n (0, 0)).2 +
            C_PARTS_PER_PRIME.getD (ladderStarts.getD n (0, 0)).1 0 =
          C_PARTS_ACC_COUNTS.getD (ladderStarts.getD n (0, 0)).1 0 then
        (ladderStarts.getD n (0, 0)).1 + 1
      else (ladderStarts.getD n (0, 0)).1) =
      (ladderStarts.getD (n + 1) (0, 0)).1) ∧
    ((ladderStarts.getD (n + 1) (0, 0)).2 ≠ 150) ∧
    (is_overflow 64 (ladderStarts.getD (n + 1) (0, 0)).2
        (C_PARTS_PER_PRIME.getD (ladderStarts.getD (n + 1) (0, 0)).1 0) =
      false) ∧
    (build_prime 64 (ladderStarts.getD (n + 1) (0, 0)).2
        (C_PARTS_PER_PRIME.getD (ladderStarts.getD (n + 1) (0, 0)).1 0) =
      ladderPrimes.getD (n + 1) 0) := by decide

lemma incr_step64 (n : Nat) (hn : n < 53) (s : HTState)
    (hg : s.group_ix = (ladderStarts.getD n (0, 0)).1)
    (hix : s.count_ix = (ladderStarts.getD n (0, 0)).2) :
    incr_count 64 s = (true,
      { s with
          group_ix := (ladderStarts.getD (n + 1) (0, 0)).1
          count_ix := (ladderStarts.getD (n + 1) (0, 0)).2
          count := ladderPrimes.getD (n + 1) 0
          max_num_elts := mul_alpha_sz_max 64 (ladderPrimes.getD (n + 1) 0)
            s.alpha_n s.log_alpha_d }) := by
  obtain ⟨hle, hix1, hg1, hne150, hov, hbp⟩ := ladder_step64 n hn
  have hmod : ((ladderStarts.getD n (0, 0)).2 +
      C_PARTS_PER_PRIME.getD (ladderStarts.getD n (0, 0)).1 0) % 2 ^ 64 =
        (ladderStarts.getD n (0, 0)).2 +
          C_PARTS_PER_PRIME.getD (ladderStarts.getD n (0, 0)).1 0 := by
    apply Nat.mod_eq_of_lt
    calc _ ≤ 150 := hle
      _ < 2 ^ 64 := by decide
  have hppc : C_PRIME_PARTS_COUNT = 150 := by decide
  simp only [incr_count, hg, hix]
  rw [hmod, hg1, hix1, hppc, if_neg hne150, if_neg (by rw [hov]; decide), hbp]

lemma init_loop_sim : ∀ (j n : Nat), n + j = 53 →
    ∀ (s : HTState) (mn fuel : Nat), j + 2 ≤ fuel →
    s.group_ix = (ladderStarts.getD n (0, 0)).1 →
    s.count_ix = (ladderStarts.getD n (0, 0)).2 →
    s.count = ladderPrimes.getD n 0 →
    s.max_num_elts =
      mul_alpha_sz_max 64 (ladderPrimes.getD n 0) s.alpha_n s.log_alpha_d →
    (incr_loop 64 (fun t => decide (t.max_num_elts < mn)) fuel s).count =
      ((ladderPrimes.drop n).find?
        (fun p => decide (mn ≤
          mul_alpha_sz_max 64 p s.alpha_n s.log_alpha_d))).getD
        (ladderPrimes.getD 53 0) := by
  intro j
  induction j with
  | zero =>
    intro n hn s mn fuel hfuel hg hix hcount hmax
    have hn53 : n = 53 := by omega
    subst hn53
    obtain ⟨f, rfl⟩ : ∃ f, fuel = f + 1 := ⟨fuel - 1, by omega⟩
    rw [incr_loop]
    have hdrop : ladderPrimes.drop 53 = [ladderPrimes.getD 53 0] := by decide
    by_cases hc : s.max_num_elts < mn
    · rw [if_pos (by simpa using hc)]
      have hstep : incr_count 64 s = (false,
          { s with count_ix := 150, group_ix := 4 }) := by
        have hmod : ((ladderStarts.getD 53 (0, 0)).2 +
            C_PARTS_PER_PRIME.getD (ladderStarts.getD 53 (0, 0)).1 0) % 2 ^ 64
              = 150 := by decide
        have hgix : (if (150 : Nat) = C_PARTS_ACC_COUNTS.getD
              (ladderStarts.getD 53 (0, 0)).1 0 then
            (ladderStarts.getD 53 (0, 0)).1 + 1
          else (ladderStarts.getD 53 (0, 0)).1) = 4 := by decide
        simp only [incr_count, hg, hix, hmod, hgix]
        rw [if_pos (by decide)]
      rw [hstep]
      dsimp only
      rw [hdrop]
      have hfindn : List.find?
          (fun p => decide (mn ≤
            mul_alpha_sz_max 64 p s.alpha_n s.log_alpha_d))
          [ladderPrimes.getD 53 0] = none := by
        rw [List.find?_cons_of_neg]
        · rfl
        · simp only [decide_eq_true_eq]
          rw [← hmax]
          omega
      rw [hfindn]
      exact hcount
    · rw [if_neg (by simpa using hc)]
      rw [hdrop]
      have hfinds : List.find?
          (fun p => decide (mn ≤
            mul_alpha_sz_max 64 p s.alpha_n s.log_alpha_d))
          [ladderPrimes.getD 53 0] = some (ladderPrimes.getD 53 0) := by
        apply List.find?_cons_of_pos
        simp only [decide_eq_true_eq]
        rw [← hmax]
        omega
      rw [hfinds]
      exact hcount
  | succ j ih =>
    intro n hn s mn fuel hfuel hg hix hcount hmax
    have hn52 : n < 53 := by omega
    obtain ⟨f, rfl⟩ : ∃ f, fuel = f + 1 := ⟨fuel - 1, by omega⟩
    rw [incr_loop]
    have hlen : n < ladderPrimes.length := by
      have h54 : ladderPrimes.length = 54 := by decide
      omega
    have hdropn : ladderPrimes.drop n =
        ladderPrimes.getD n 0 :: ladderPrimes.drop (n + 1) := by
      rw [List.drop_eq_getElem_cons hlen, List.getD_eq_getElem _ _ hlen]
    by_cases hc : s.max_num_elts < mn
    · rw [if_pos (by simpa using hc)]
      rw [incr_step64 n hn52 s hg hix]
      dsimp only
      have happ := ih (n + 1) (by omega)
        { s with
            group_ix := (ladderStarts.getD (n + 1) (0, 0)).1
            count_ix := (ladderStarts.getD (n + 1) (0, 0)).2
            count := ladderPrimes.getD (n + 1) 0
            max_num_elts := mul_alpha_sz_max 64 (ladderPrimes.getD (n + 1) 0)
              s.alpha_n s.log_alpha_d }
        mn f (by omega) rfl rfl rfl rfl
      rw [happ]
      rw [hdropn, List.find?_cons_of_neg]
      simp only [decide_eq_true_eq]
      rw [← hmax]
      omega
    · rw [if_neg (by simpa using hc)]
      rw [hdropn]
      have hfinds : List.find?
          (fun p => decide (mn ≤
            mul_alpha_sz_max 64 p s.alpha_n s.log_alpha_d))
          (ladderPrimes.getD n 0 :: ladderPrimes.drop (n + 1)) =
            some (ladderPrimes.getD n 0) := by
        apply List.find?_cons_of_pos
        simp only [decide_eq_true_eq]
        rw [← hmax]
        omega
      rw [hfinds]
      exact hcount

end HtDivchn

namespace HtDivchn

lemma find?_getD_le_of_sorted (p : Nat → Bool) (d : Nat) :
    ∀ (l : List Nat), l.Pairwise (· ≤ ·) →
    ∀ x ∈ l, p x = true → (l.find? p).getD d ≤ x := by
  intro l
  induction l with
  | nil => intro _ x hx; cases hx
  | cons a t ih =>
    intro hp x hx hpx
    rw [List.pairwise_cons] at hp
    by_cases ha : p a = true
    · rw [List.find?_cons_of_pos _ ha]
      rcases List.mem_cons.mp hx with rfl | hxt
      · exact Nat.le_refl x
      · exact hp.1 x hxt
    · rw [List.find?_cons_of_neg _ (by simpa using ha)]
      rcases List.mem_cons.mp hx with rfl | hxt
      · exact absurd hpx ha
      · exact ih hp.2 x hxt hpx

set_option maxRecDepth 8000 in
lemma ladderPrimes_sorted : ladderPrimes.Pairwise (· ≤ ·) := by decide

/-- Claim C8: on a 64-bit host, after ht_divchn_init with parameters in the
    documented ranges the table is empty (num_elts = 0 and every bucket head
    NULL) and the modulus is the first (hence, the ladder being increasing,
    the smallest) ladder prime whose max_num_elts bound is at least min_num,
    or the last (largest) ladder prime when no ladder prime suffices. -/
theorem claim_C8 (mn an ld : Nat) (han : 1 ≤ an) (hld : ld < 64) :
    (ht_divchn_init 64 mn an ld).num_elts = 0 ∧
    (ht_divchn_init 64 mn an ld).key_elts =
      List.replicate (ht_divchn_init 64 mn an ld).count [] ∧
    (ht_divchn_init 64 mn an ld).count =
      ((ladderPrimes.find?
        (fun p => decide (mn ≤ mul_alpha_sz_max 64 p an ld))).getD
        (ladderPrimes.getD 53 0)) ∧
    (∀ p ∈ ladderPrimes, mn ≤ mul_alpha_sz_max 64 p an ld →
      (ht_divchn_init 64 mn an ld).count ≤ p) := by
  have hbp0 : build_prime 64 0 (C_PARTS_PER_PRIME.getD 0 0) =
      ladderPrimes.getD 0 0 := by decide
  have hsim := init_loop_sim 53 0 (by omega)
    { count := build_prime 64 0 (C_PARTS_PER_PRIME.getD 0 0), count_ix := 0,
      group_ix := 0, num_elts := 0,
      max_num_elts := mul_alpha_sz_max 64
        (build_prime 64 0 (C_PARTS_PER_PRIME.getD 0 0)) an ld,
      alpha_n := an, log_alpha_d := ld, key_elts := [] }
    mn C_LOOP_FUEL (by decide)
    (by show (0 : Nat) = (ladderStarts.getD 0 (0, 0)).1; decide)
    (by show (0 : Nat) = (ladderStarts.getD 0 (0, 0)).2; decide)
    (by show build_prime 64 0 (C_PARTS_PER_PRIME.getD 0 0) =
          ladderPrimes.getD 0 0
        exact hbp0)
    (by show mul_alpha_sz_max 64
            (build_prime 64 0 (C_PARTS_PER_PRIME.getD 0 0)) an ld =
          mul_alpha_sz_max 64 (ladderPrimes.getD 0 0) an ld
        rw [hbp0])
  rw [List.drop_zero] at hsim
  have hnum := (incr_loop_keeps 64 (fun t => decide (t.max_num_elts < mn))
    C_LOOP_FUEL
    { count := build_prime 64 0 (C_PARTS_PER_PRIME.getD 0 0), count_ix := 0,
      group_ix := 0, num_elts := 0,
      max_num_elts := mul_alpha_sz_max 64
        (build_prime 64 0 (C_PARTS_PER_PRIME.getD 0 0)) an ld,
      alpha_n := an, log_alpha_d := ld, key_elts := [] }).2.1
  have hcount3 : (ht_divchn_init 64 mn an ld).count =
      ((ladderPrimes.find?
        (fun p => decide (mn ≤ mul_alpha_sz_max 64 p an ld))).getD
        (ladderPrimes.getD 53 0)) := hsim
  refine ⟨hnum, rfl, hcount3, ?_⟩
  intro p hp hsat
  rw [hcount3]
  exact find?_getD_le_of_sorted
    (fun p => decide (mn ≤ mul_alpha_sz_max 64 p an ld))
    (ladderPrimes.getD 53 0) ladderPrimes ladderPrimes_sorted p hp
    (by simpa using hsat)

/-- Witness for claim_C8 at min_num = 0, alpha_n = 1, log_alpha_d = 0. -/
theorem claim_C8_witness :
    (1 : Nat) ≤ 1 ∧ 0 < 64 ∧ (ht_divchn_init 64 0 1 0).num_elts = 0 :=
  ⟨by decide, by decide, (claim_C8 0 1 0 (by decide) (by decide)).1⟩

end HtDivchn

namespace HtDivchn

lemma countP_flatten (p : Node → Bool) :
    ∀ L : List Chain, L.flatten.countP p = (L.map (List.countP p)).sum := by
  intro L
  induction L with
  | nil => rfl
  | cons c t ih =>
    rw [List.flatten_cons, List.countP_append, ih, List.map_cons,
      List.sum_cons]

lemma sum_map_set (g : Chain → Nat) :
    ∀ (L : List Chain) (j : Nat) (c' : Chain), j < L.length →
    ((L.set j c').map g).sum + g (L.getD j []) = (L.map g).sum + g c' := by
  intro L
  induction L with
  | nil => intro j c' h; cases h
  | cons x t ih =>
    intro j c' h
    cases j with
    | zero =>
      simp only [List.set_cons_zero, List.map_cons, List.sum_cons,
        List.getD_cons_zero]
      omega
    | succ j =>
      simp only [List.set_cons_succ, List.map_cons, List.sum_cons,
        List.getD_cons_succ]
      have := ih j c' (by simpa using Nat.lt_of_succ_lt_succ h)
      omega

lemma countP_eraseIdx (p : Node → Bool) :
    ∀ (l : Chain) (i : Nat), ∀ h : i < l.length, p l[i] = true →
    (l.eraseIdx i).countP p + 1 = l.countP p := by
  intro l
  induction l with
  | nil => intro i h; cases h
  | cons x t ih =>
    intro i h hp
    cases i with
    | zero =>
      rw [List.eraseIdx_cons_zero]
      rw [List.getElem_cons_zero] at hp
      rw [List.countP_cons_of_pos _ _ hp]
    | succ i =>
      rw [List.eraseIdx_cons_succ]
      rw [List.getElem_cons_succ] at hp
      have hi : i < t.length := by simpa using Nat.lt_of_succ_lt_succ h
      by_cases hx : p x = true
      · have := ih i hi hp
        rw [List.countP_cons_of_pos _ _ hx, List.countP_cons_of_pos _ _ hx]
        omega
      · rw [List.countP_cons_of_neg _ _ (by simpa using hx),
          List.countP_cons_of_neg _ _ (by simpa using hx)]
        exact ih i hi hp

lemma countP_two_le (p : Node → Bool) :
    ∀ (l : Chain) (a b : Node), a ∈ l → b ∈ l → a ≠ b →
    p a = true → p b = true → 2 ≤ l.countP p := by
  intro l
  induction l with
  | nil => intro a b ha; cases ha
  | cons x t ih =>
    intro a b ha hb hne hpa hpb
    rcases List.mem_cons.mp ha with rfl | hat
    · have hbt : b ∈ t := by
        rcases List.mem_cons.mp hb with rfl | h
        · exact absurd rfl hne
        · exact h
      rw [List.countP_cons_of_pos _ _ hpa]
      have : 0 < t.countP p := List.countP_pos_iff.mpr ⟨b, hbt, hpb⟩
      omega
    · rcases List.mem_cons.mp hb with rfl | hbt
      · rw [List.countP_cons_of_pos _ _ hpb]
        have : 0 < t.countP p := List.countP_pos_iff.mpr ⟨a, hat, hpa⟩
        omega
      · have := ih a b hat hbt hne hpa hpb
        by_cases hx : p x = true
        · rw [List.countP_cons_of_pos _ _ hx]
          omega
        · rw [List.countP_cons_of_neg _ _ (by simpa using hx)]
          omega

lemma flatten_set_cons (x : Node) :
    ∀ (L : List Chain) (j : Nat), j < L.length →
    (L.set j (x :: L.getD j [])).flatten.Perm (x :: L.flatten) := by
  intro L
  induction L with
  | nil => intro j h; cases h
  | cons c t ih =>
    intro j h
    cases j with
    | zero =>
      simp only [List.getD_cons_zero, List.set_cons_zero, List.flatten_cons]
      exact List.Perm.refl _
    | succ j =>
      simp only [List.getD_cons_succ, List.set_cons_succ, List.flatten_cons]
      have hj : j < t.length := by simpa using Nat.lt_of_succ_lt_succ h
      exact ((ih j hj).append_left c).trans List.perm_middle

lemma foldl_place_flatten_perm (f : List Nat → Nat) (cnt : Nat)
    (hcnt : 0 < cnt) :
    ∀ (nodes : Chain) (acc : List Chain), acc.length = cnt →
    (nodes.foldl (place f cnt) acc).flatten.Perm (nodes ++ acc.flatten) := by
  intro nodes
  induction nodes with
  | nil => intro acc _; exact List.Perm.refl _
  | cons n t ih =>
    intro acc hlen
    show (t.foldl (place f cnt) (place f cnt acc n)).flatten.Perm _
    have hj : f n.1 % cnt < acc.length := by
      rw [hlen]
      exact Nat.mod_lt _ hcnt
    have h1 : (place f cnt acc n).flatten.Perm (n :: acc.flatten) := by
      unfold place
      exact flatten_set_cons n acc (f n.1 % cnt) hj
    exact ((ih (place f cnt acc n) (by rw [place_length]; exact hlen)).trans
      (h1.append_left t)).trans List.perm_middle

lemma flatten_replicate_nil :
    ∀ cnt : Nat, (List.replicate cnt ([] : Chain)).flatten = [] := by
  intro cnt
  induction cnt with
  | zero => rfl
  | succ c ih => rw [List.replicate_succ, List.flatten_cons, ih]; rfl

lemma rethread_flatten_perm (f : List Nat → Nat) (cnt : Nat) (hcnt : 0 < cnt)
    (buckets : List Chain) :
    (rethread f cnt buckets).flatten.Perm buckets.flatten := by
  rw [rethread_eq_foldl_flatten]
  have := foldl_place_flatten_perm f cnt hcnt buckets.flatten
    (List.replicate cnt []) (List.length_replicate _ _)
  rw [flatten_replicate_nil, List.append_nil] at this
  exact this

lemma find?_eq_of_first (p : Node → Bool) :
    ∀ (l : Chain) (i : Nat) (h : i < l.length), p l[i] = true →
    (∀ j (hj : j < i), ¬p (l.get ⟨j, Nat.lt_trans hj h⟩) = true) →
    l.find? p = some l[i] := by
  intro l
  induction l with
  | nil => intro i h; cases h
  | cons x t ih =>
    intro i h hp hpre
    cases i with
    | zero =>
      rw [List.getElem_cons_zero] at hp ⊢
      exact List.find?_cons_of_pos _ hp
    | succ i =>
      have hx : ¬p x = true := by
        have := hpre 0 (Nat.succ_pos i)
        simpa using this
      rw [List.find?_cons_of_neg _ hx]
      rw [List.getElem_cons_succ] at hp ⊢
      refine ih i (by simpa using Nat.lt_of_succ_lt_succ h) hp ?_
      intro j hj
      have := hpre (j + 1) (Nat.succ_lt_succ hj)
      simpa using this

end HtDivchn

namespace HtDivchn

lemma countP_getElem_le (p : Node → Bool) (L : List Chain) (i : Nat)
    (h : i < L.length) : L[i].countP p ≤ L.flatten.countP p := by
  rw [countP_flatten]
  refine List.single_le_sum (fun x _ => Nat.zero_le x) _ ?_
  exact List.mem_map_of_mem (List.countP p) (List.getElem_mem h)

lemma findIdx?_spec (p : Node → Bool) (l : Chain) (i : Nat)
    (hf : l.findIdx? p = some i) :
    ∃ h : i < l.length, p l[i] = true ∧
      ∀ j (hj : j < i), ¬p (l.get ⟨j, Nat.lt_trans hj h⟩) = true := by
  obtain ⟨h, hp, hmin⟩ := List.findIdx?_eq_some_iff_getElem.mp hf
  exact ⟨h, hp, fun j hj => hmin j hj⟩

lemma findIdx?_eq_some_of_first (p : Node → Bool) (l : Chain) (i : Nat)
    (h : i < l.length) (hp : p l[i] = true)
    (hmin : ∀ j (hj : j < i), ¬p (l.get ⟨j, Nat.lt_trans hj h⟩) = true) :
    l.findIdx? p = some i :=
  List.findIdx?_eq_some_iff_getElem.mpr ⟨h, hp, fun j hj => hmin j hj⟩

lemma ht_grow_nodes (w : Nat) (f : List Nat → Nat) (s : HTState) (hw : 16 ≤ w)
    (hv : validPosB s.group_ix s.count_ix = true) (hcnt : 0 < s.count) :
    (nodesOf (ht_grow w f s)).Perm (nodesOf s) := by
  rw [ht_grow]
  have hfuel : 150 - s.count_ix < C_LOOP_FUEL := by
    have : C_LOOP_FUEL = 151 := by decide
    omega
  have hl := incr_loop_valid w hw
    (fun t => decide (t.max_num_elts < t.num_elts)) C_LOOP_FUEL s hv hfuel
  set s1 := incr_loop w (fun t => decide (t.max_num_elts < t.num_elts))
    C_LOOP_FUEL s with hs1
  have hk : s1.key_elts = s.key_elts := (incr_loop_keeps w _ C_LOOP_FUEL s).1
  by_cases hsame : s.count = s1.count
  · rw [if_pos hsame]
    unfold nodesOf
    rw [hk]
  · rw [if_neg hsame]
    unfold nodesOf
    dsimp only
    rw [hk]
    exact rethread_flatten_perm f s1.count (hl.2.2 hcnt) s.key_elts

lemma grow_check_nodes (w : Nat) (f : List Nat → Nat) (s : HTState)
    (hw : 16 ≤ w) (hL : LadderInv w s) (hcnt : 0 < s.count) :
    (nodesOf (grow_check w f s)).Perm (nodesOf s) := by
  rw [grow_check]
  split_ifs with hgc
  · obtain ⟨h1, h2, h3⟩ := hgc
    have hv : validPosB s.group_ix s.count_ix = true := by
      rcases hL with h | h | h
      · exact h
      · exact absurd h h2
      · exact absurd h h3
    exact ht_grow_nodes w f s hw hv hcnt
  · exact List.Perm.refl _

lemma grow_check_id (w : Nat) (f : List Nat → Nat) (t : HTState)
    (h : t.num_elts ≤ t.max_num_elts ∨ t.count_ix = 2 ^ w - 1 ∨
      t.count_ix = C_PRIME_PARTS_COUNT) : grow_check w f t = t := by
  rw [grow_check, if_neg]
  rintro ⟨h1, h2, h3⟩
  rcases h with h | h | h
  · omega
  · exact h2 h
  · exact h3 h

end HtDivchn

namespace HtDivchn

lemma insert_fresh (w : Nat) (f : List Nat → Nat) (hasFree : Bool)
    (s : HTState) (k e : List Nat) (hw : 16 ≤ w) (hWB : WellB f s)
    (hL : LadderInv w s) (hcnt : 0 < s.count) (hnp : NotPresent s k) :
    (ht_divchn_insert w f hasFree s k e).2 = [] ∧
    WellB f (ht_divchn_insert w f hasFree s k e).1 ∧
    0 < (ht_divchn_insert w f hasFree s k e).1.count ∧
    (ht_divchn_insert w f hasFree s k e).1.num_elts = s.num_elts + 1 ∧
    (nodesOf (ht_divchn_insert w f hasFree s k e).1).Perm
      ((k, e) :: nodesOf s) := by
  have hix : hash f s k < s.key_elts.length := by
    rw [hWB.1]
    exact Nat.mod_lt _ hcnt
  have hWB1 : WellB f (ht_divchn_insert w f hasFree s k e).1 :=
    insert_wellB w f hasFree s k e hWB
  have hLIns : LadderInv w
      ({ s with
          key_elts := s.key_elts.set (hash f s k)
            ((k, e) :: s.key_elts.getD (hash f s k) [])
          num_elts := s.num_elts + 1 } : HTState) :=
    ladderInv_fields w s _ rfl rfl hL
  have hins : ht_divchn_insert w f hasFree s k e =
      (grow_check w f
        { s with
            key_elts := s.key_elts.set (hash f s k)
              ((k, e) :: s.key_elts.getD (hash f s k) [])
            num_elts := s.num_elts + 1 },
       []) := by
    rw [ht_divchn_insert, chain_no_match s k hnp (hash f s k)]
  rw [hins]
  have hpost := grow_check_post w f
    ({ s with
        key_elts := s.key_elts.set (hash f s k)
          ((k, e) :: s.key_elts.getD (hash f s k) [])
        num_elts := s.num_elts + 1 } : HTState) hw hLIns
  refine ⟨rfl, ?_, ?_, ?_, ?_⟩
  · rw [hins] at hWB1
    exact hWB1
  · exact hpost.2.2.1 hcnt
  · exact hpost.2.2.2
  · refine (grow_check_nodes w f _ hw hLIns hcnt).trans ?_
    show ((s.key_elts.set (hash f s k)
      ((k, e) :: s.key_elts.getD (hash f s k) [])).flatten).Perm
      ((k, e) :: s.key_elts.flatten)
    exact flatten_set_cons (k, e) s.key_elts (hash f s k) hix

end HtDivchn

namespace HtDivchn

/-- C5: for every table satisfying the structural invariants (buckets of
    length count with correctly bucketed nodes, valid or terminal ladder
    fields, positive modulus) and every key k not in the table, inserting
    (k, e) and then removing k copies e into the out block, leaves search(k)
    NULL, restores the live-element count to its pre-insert value, and does
    not invoke the destructor during the remove. -/
theorem claim_C5 (w : Nat) (f : List Nat → Nat) (hasFree : Bool) (s : HTState)
    (k e : List Nat) (hw : 16 ≤ w) (hWB : WellB f s) (hL : LadderInv w s)
    (hcnt : 0 < s.count) (hnp : NotPresent s k) :
    (ht_divchn_remove f (ht_divchn_insert w f hasFree s k e).1 k).2.1 =
      some e ∧
    ht_divchn_search f
      (ht_divchn_remove f (ht_divchn_insert w f hasFree s k e).1 k).1 k =
      none ∧
    (ht_divchn_remove f
      (ht_divchn_insert w f hasFree s k e).1 k).1.num_elts = s.num_elts ∧
    (ht_divchn_remove f (ht_divchn_insert w f hasFree s k e).1 k).2.2 = [] := by
  obtain ⟨-, hWB2, hcnt2, hnum2, hperm2⟩ :=
    insert_fresh w f hasFree s k e hw hWB hL hcnt hnp
  set s2 := (ht_divchn_insert w f hasFree s k e).1 with hs2
  have hcount0 : (nodesOf s).countP (fun n => n.1 == k) = 0 := by
    rw [List.countP_eq_zero]
    intro n hn
    have := hnp n hn
    simpa using this
  have hcount2 : (nodesOf s2).countP (fun n => n.1 == k) = 1 := by
    rw [List.Perm.countP_eq _ hperm2, List.countP_cons_of_pos _ _ (by simp),
      hcount0]
  have hmem2 : ((k, e) : Node) ∈ nodesOf s2 :=
    hperm2.mem_iff.mpr (List.mem_cons_self _ _)
  have hix2 : hash f s2 k < s2.key_elts.length := by
    rw [hWB2.1]
    exact Nat.mod_lt _ hcnt2
  have hchain2 : ((k, e) : Node) ∈ s2.key_elts.getD (hash f s2 k) [] := by
    obtain ⟨c, hc, hkc⟩ := List.mem_flatten.mp hmem2
    obtain ⟨j, hj, rfl⟩ := List.mem_iff_getElem.mp hc
    have hjj : hash f s2 k = j := hWB2.2 j hj (k, e) hkc
    rw [hjj, List.getD_eq_getElem _ _ hj]
    exact hkc
  obtain ⟨i, hfr⟩ : ∃ i, (s2.key_elts.getD (hash f s2 k) []).findIdx?
      (fun n => n.1 == k) = some i := by
    rcases hopt : (s2.key_elts.getD (hash f s2 k) []).findIdx?
        (fun n => n.1 == k) with _ | i
    · exfalso
      rw [List.findIdx?_eq_none_iff] at hopt
      have := hopt (k, e) hchain2
      simpa using this
    · exact ⟨i, hopt⟩
  obtain ⟨hilen, hpi, -⟩ := findIdx?_spec _ _ _ hfr
  have hgi : (s2.key_elts.getD (hash f s2 k) []).getD i ([], []) =
      (s2.key_elts.getD (hash f s2 k) []).get ⟨i, hilen⟩ := by
    rw [List.getD_eq_getElem _ _ hilen]
    rfl
  have hnmem : (s2.key_elts.getD (hash f s2 k) []).get ⟨i, hilen⟩ ∈
      nodesOf s2 :=
    mem_getD_mem_nodesOf s2 _ (List.getElem_mem hilen)
  have heqn : (s2.key_elts.getD (hash f s2 k) []).get ⟨i, hilen⟩ =
      ((k, e) : Node) := by
    by_contra hne
    have h2 := countP_two_le (fun n => n.1 == k) (nodesOf s2) _ (k, e)
      hnmem hmem2 hne hpi (by simp)
    omega
  have hcpc : (s2.key_elts.getD (hash f s2 k) []).countP
      (fun n => n.1 == k) = 1 := by
    have hle : (s2.key_elts.getD (hash f s2 k) []).countP
        (fun n => n.1 == k) ≤ (nodesOf s2).countP (fun n => n.1 == k) := by
      rw [List.getD_eq_getElem _ _ hix2]
      exact countP_getElem_le _ s2.key_elts _ hix2
    have hpos : 0 < (s2.key_elts.getD (hash f s2 k) []).countP
        (fun n => n.1 == k) :=
      List.countP_pos_iff.mpr ⟨(k, e), hchain2, by simp⟩
    omega
  have hcz : ((s2.key_elts.getD (hash f s2 k) []).eraseIdx i).countP
      (fun n => n.1 == k) = 0 := by
    have := countP_eraseIdx (fun n => n.1 == k) _ i hilen hpi
    omega
  have hrm : ht_divchn_remove f s2 k =
      ({ s2 with
           key_elts := s2.key_elts.set (hash f s2 k)
             ((s2.key_elts.getD (hash f s2 k) []).eraseIdx i)
           num_elts := s2.num_elts - 1 },
       some ((s2.key_elts.getD (hash f s2 k) []).getD i ([], [])).2,
       []) := by
    rw [ht_divchn_remove, hfr]
    rfl
  rw [hrm]
  refine ⟨?_, ?_, ?_, rfl⟩
  · rw [hgi, heqn]
  · have hg3 : (s2.key_elts.set (hash f s2 k)
        ((s2.key_elts.getD (hash f s2 k) []).eraseIdx i)).getD
        (hash f s2 k) [] =
        (s2.key_elts.getD (hash f s2 k) []).eraseIdx i := by
      rw [List.getD_eq_getElem _ _ (by rw [List.length_set]; exact hix2),
        List.getElem_set_self]
    show (((s2.key_elts.set (hash f s2 k)
        ((s2.key_elts.getD (hash f s2 k) []).eraseIdx i)).getD
        (hash f s2 k) []).find? (fun n => n.1 == k)).map
        (fun n => n.2) = none
    rw [hg3]
    have hnone : ((s2.key_elts.getD (hash f s2 k) []).eraseIdx i).find?
        (fun n => n.1 == k) = none := by
      rw [List.find?_eq_none]
      intro x hx
      have h0 := List.countP_eq_zero.mp hcz x hx
      simpa using h0
    rw [hnone]
    rfl
  · show s2.num_elts - 1 = s.num_elts
    omega

theorem claim_C5_witness :
    NotPresent
      { count := 1, count_ix := 150, group_ix := 4, num_elts := 0,
        max_num_elts := 0, alpha_n := 1, log_alpha_d := 0,
        key_elts := [[]] } [1] ∧
    (ht_divchn_remove (fun k => k.getD 0 0)
      (ht_divchn_insert 16 (fun k => k.getD 0 0) true
        { count := 1, count_ix := 150, group_ix := 4, num_elts := 0,
          max_num_elts := 0, alpha_n := 1, log_alpha_d := 0,
          key_elts := [[]] } [1] [2]).1 [1]).2.1 = some [2] :=
  ⟨by unfold NotPresent nodesOf; decide,
   (claim_C5 16 (fun k => k.getD 0 0) true
     { count := 1, count_ix := 150, group_ix := 4, num_elts := 0,
       max_num_elts := 0, alpha_n := 1, log_alpha_d := 0, key_elts := [[]] }
     [1] [2] (by decide) (by unfold WellB; decide)
     (by unfold LadderInv; decide) (by decide)
     (by unfold NotPresent nodesOf; decide)).1⟩

end HtDivchn

namespace HtDivchn

lemma find?_set_node (p : Node → Bool) (c : Chain) (i : Nat)
    (h : i < c.length) (x : Node) (hx : p x = true)
    (hmin : ∀ j (hj : j < i), ¬p (c.get ⟨j, Nat.lt_trans hj h⟩) = true) :
    (c.set i x).find? p = some x := by
  have hlen : i < (c.set i x).length := by
    rw [List.length_set]
    exact h
  have hpi : p ((c.set i x).get ⟨i, hlen⟩) = true := by
    have hg : (c.set i x).get ⟨i, hlen⟩ = x := List.getElem_set_self hlen
    rw [hg]
    exact hx
  have hmins : ∀ j (hj : j < i),
      ¬p ((c.set i x).get ⟨j, Nat.lt_trans hj hlen⟩) = true := by
    intro j hj
    have hne : i ≠ j := by omega
    have hg : (c.set i x).get ⟨j, Nat.lt_trans hj hlen⟩ =
        c.get ⟨j, Nat.lt_trans hj h⟩ :=
      List.getElem_set_ne hne (Nat.lt_trans hj hlen)
    rw [hg]
    exact hmin j hj
  have hfi := find?_eq_of_first p (c.set i x) i hlen hpi hmins
  rw [hfi, List.getElem_set_self hlen]

lemma findIdx?_set_node (p : Node → Bool) (c : Chain) (i : Nat)
    (h : i < c.length) (x : Node) (hx : p x = true)
    (hmin : ∀ j (hj : j < i), ¬p (c.get ⟨j, Nat.lt_trans hj h⟩) = true) :
    (c.set i x).findIdx? p = some i := by
  have hlen : i < (c.set i x).length := by
    rw [List.length_set]
    exact h
  refine findIdx?_eq_some_of_first p (c.set i x) i hlen ?_ ?_
  · have hg : (c.set i x).get ⟨i, hlen⟩ = x := List.getElem_set_self hlen
    show p ((c.set i x).get ⟨i, hlen⟩) = true
    rw [hg]
    exact hx
  · intro j hj
    have hne : i ≠ j := by omega
    have hg : (c.set i x).get ⟨j, Nat.lt_trans hj hlen⟩ =
        c.get ⟨j, Nat.lt_trans hj h⟩ :=
      List.getElem_set_ne hne (Nat.lt_trans hj hlen)
    show ¬p ((c.set i x).get ⟨j, Nat.lt_trans hj hlen⟩) = true
    rw [hg]
    exact hmin j hj

lemma insert_update (w : Nat) (f : List Nat → Nat) (hasFree : Bool)
    (t : HTState) (k e : List Nat) (c : Chain) (i : Nat)
    (hch : t.key_elts.getD (hash f t k) [] = c)
    (hC : t.num_elts ≤ t.max_num_elts ∨ t.count_ix = 2 ^ w - 1 ∨
      t.count_ix = C_PRIME_PARTS_COUNT)
    (hlen : t.key_elts.length = t.count) (hcnt : 0 < t.count)
    (hilen : i < c.length)
    (hpi : (c.get ⟨i, hilen⟩).1 = k)
    (hmin : ∀ j (hj : j < i),
      ¬((c.get ⟨j, Nat.lt_trans hj hilen⟩).1 == k) = true) :
    ht_divchn_insert w f hasFree t k e =
      ({ t with key_elts := t.key_elts.set (hash f t k) (c.set i (k, e)) },
       freeLog hasFree (c.get ⟨i, hilen⟩).2) ∧
    ht_divchn_search f (ht_divchn_insert w f hasFree t k e).1 k = some e ∧
    (ht_divchn_insert w f hasFree t k e).1.num_elts = t.num_elts := by
  have hfi : (t.key_elts.getD (hash f t k) []).findIdx?
      (fun n => n.1 == k) = some i := by
    rw [hch]
    exact findIdx?_eq_some_of_first _ c i hilen (by simpa using hpi)
      (fun j hj => hmin j hj)
  have hgd : c.getD i ([], []) = c.get ⟨i, hilen⟩ := by
    rw [List.getD_eq_getElem _ _ hilen]
    rfl
  have hCt :
      ({ t with
          key_elts := t.key_elts.set (hash f t k) (c.set i (k, e)) } :
        HTState).num_elts ≤
      ({ t with
          key_elts := t.key_elts.set (hash f t k) (c.set i (k, e)) } :
        HTState).max_num_elts ∨
      ({ t with
          key_elts := t.key_elts.set (hash f t k) (c.set i (k, e)) } :
        HTState).count_ix = 2 ^ w - 1 ∨
      ({ t with
          key_elts := t.key_elts.set (hash f t k) (c.set i (k, e)) } :
        HTState).count_ix = C_PRIME_PARTS_COUNT := hC
  have heq1 : ht_divchn_insert w f hasFree t k e =
      ({ t with key_elts := t.key_elts.set (hash f t k) (c.set i (k, e)) },
       freeLog hasFree (c.get ⟨i, hilen⟩).2) := by
    rw [ht_divchn_insert, hfi, hch]
    dsimp only
    rw [hgd, hpi, grow_check_id w f _ hCt]
  refine ⟨heq1, ?_, ?_⟩
  · rw [heq1]
    have hixlt : hash f t k < t.key_elts.length := by
      rw [hlen]
      exact Nat.mod_lt _ hcnt
    have hgd2 : (t.key_elts.set (hash f t k) (c.set i (k, e))).getD
        (hash f t k) [] = c.set i (k, e) := by
      rw [List.getD_eq_getElem _ _ (by rw [List.length_set]; exact hixlt),
        List.getElem_set_self]
    show (((t.key_elts.set (hash f t k) (c.set i (k, e))).getD
        (hash f t k) []).find? (fun n => n.1 == k)).map (fun n => n.2) =
        some e
    rw [hgd2, find?_set_node (fun n => n.1 == k) c i hilen (k, e) (by simp)
      (fun j hj => hmin j hj)]
    rfl
  · rw [heq1]

end HtDivchn

namespace HtDivchn

/-- C4: for every table satisfying the structural invariants (buckets of
    length count with correctly bucketed nodes, live count within
    max_num_elts or terminal ladder, positive modulus) and every key k
    already present: the chain search finds the first matching node at some
    index i, inserting (k, e) runs the destructor on exactly that node's
    stored element region (when the table has a destructor), byte-copies e
    over it in place leaving every other node untouched, and leaves the
    live-element count unchanged; moreover search(k) then returns e, and a
    second identical insert again leaves the count unchanged and
    search(k) = e. -/
theorem claim_C4 (w : Nat) (f : List Nat → Nat) (hasFree : Bool) (s : HTState)
    (k e : List Nat) (hw : 16 ≤ w) (hWB : WellB f s) (hC : CountInv w s)
    (hcnt : 0 < s.count) (hp : Present s k) :
    ∃ i, ∃ h : i < (s.key_elts.getD (hash f s k) []).length,
      (s.key_elts.getD (hash f s k) []).findIdx? (fun n => n.1 == k) =
        some i ∧
      (ht_divchn_insert w f hasFree s k e).2 =
        freeLog hasFree ((s.key_elts.getD (hash f s k) []).get ⟨i, h⟩).2 ∧
      (ht_divchn_insert w f hasFree s k e).1.num_elts = s.num_elts ∧
      (ht_divchn_insert w f hasFree s k e).1.key_elts =
        s.key_elts.set (hash f s k)
          ((s.key_elts.getD (hash f s k) []).set i (k, e)) ∧
      ht_divchn_search f (ht_divchn_insert w f hasFree s k e).1 k = some e ∧
      (ht_divchn_insert w f hasFree
          (ht_divchn_insert w f hasFree s k e).1 k e).1.num_elts =
        (ht_divchn_insert w f hasFree s k e).1.num_elts ∧
      ht_divchn_search f
        (ht_divchn_insert w f hasFree
          (ht_divchn_insert w f hasFree s k e).1 k e).1 k = some e := by
  have hixlt : hash f s k < s.key_elts.length := by
    rw [hWB.1]
    exact Nat.mod_lt _ hcnt
  have hchmem : ∃ n ∈ s.key_elts.getD (hash f s k) [], n.1 = k := by
    obtain ⟨n0, hn0, hk0⟩ := hp
    obtain ⟨c, hc, hnc⟩ := List.mem_flatten.mp hn0
    obtain ⟨j, hj, rfl⟩ := List.mem_iff_getElem.mp hc
    have hjj : hash f s k = j := by
      have := hWB.2 j hj n0 hnc
      rw [← hk0]
      exact this
    rw [hjj, List.getD_eq_getElem _ _ hj]
    exact ⟨n0, hnc, hk0⟩
  obtain ⟨i, hfr⟩ : ∃ i, (s.key_elts.getD (hash f s k) []).findIdx?
      (fun n => n.1 == k) = some i := by
    rcases hopt : (s.key_elts.getD (hash f s k) []).findIdx?
        (fun n => n.1 == k) with _ | i
    · exfalso
      rw [List.findIdx?_eq_none_iff] at hopt
      obtain ⟨n0, hn0, hk0⟩ := hchmem
      have := hopt n0 hn0
      simp [hk0] at this
    · exact ⟨i, hopt⟩
  obtain ⟨hilen, hpi, hmin⟩ := findIdx?_spec _ _ _ hfr
  have hkeyi : ((s.key_elts.getD (hash f s k) []).get ⟨i, hilen⟩).1 = k := by
    simpa using hpi
  obtain ⟨heq1, hsrch1, hnum1⟩ := insert_update w f hasFree s k e
    (s.key_elts.getD (hash f s k) []) i rfl hC hWB.1 hcnt hilen hkeyi
    (fun j hj => hmin j hj)
  have hilen1 : i <
      ((s.key_elts.getD (hash f s k) []).set i (k, e)).length := by
    rw [List.length_set]
    exact hilen
  have hch1 : (s.key_elts.set (hash f s k)
      ((s.key_elts.getD (hash f s k) []).set i (k, e))).getD
      (hash f s k) [] =
      (s.key_elts.getD (hash f s k) []).set i (k, e) := by
    rw [List.getD_eq_getElem _ _ (by rw [List.length_set]; exact hixlt),
      List.getElem_set_self]
  have hlen1 : (s.key_elts.set (hash f s k)
      ((s.key_elts.getD (hash f s k) []).set i (k, e))).length = s.count := by
    rw [List.length_set]
    exact hWB.1
  have hpi1 : (((s.key_elts.getD (hash f s k) []).set i (k, e)).get
      ⟨i, hilen1⟩).1 = k := by
    have hg : ((s.key_elts.getD (hash f s k) []).set i (k, e)).get
        ⟨i, hilen1⟩ = ((k, e) : Node) := List.getElem_set_self hilen1
    rw [hg]
  have hmin1 : ∀ j (hj : j < i),
      ¬((((s.key_elts.getD (hash f s k) []).set i (k, e)).get
        ⟨j, Nat.lt_trans hj hilen1⟩).1 == k) = true := by
    intro j hj
    have hne : i ≠ j := by omega
    have hg : ((s.key_elts.getD (hash f s k) []).set i (k, e)).get
        ⟨j, Nat.lt_trans hj hilen1⟩ =
        (s.key_elts.getD (hash f s k) []).get ⟨j, Nat.lt_trans hj hilen⟩ :=
      List.getElem_set_ne hne (Nat.lt_trans hj hilen1)
    rw [hg]
    exact hmin j hj
  obtain ⟨-, hsrch2, hnum2⟩ := insert_update w f hasFree
    ({ s with
        key_elts := s.key_elts.set (hash f s k)
          ((s.key_elts.getD (hash f s k) []).set i (k, e)) } : HTState) k e
    ((s.key_elts.getD (hash f s k) []).set i (k, e)) i hch1 hC hlen1 hcnt
    hilen1 hpi1 hmin1
  refine ⟨i, hilen, hfr, ?_, hnum1, ?_, hsrch1, ?_, ?_⟩
  · rw [heq1]
  · rw [heq1]
  · rw [heq1]
    exact hnum2
  · rw [heq1]
    exact hsrch2

theorem claim_C4_witness :
    Present
      { count := 1, count_ix := 150, group_ix := 4, num_elts := 1,
        max_num_elts := 1, alpha_n := 1, log_alpha_d := 0,
        key_elts := [[([1], [9])]] } [1] ∧
    ht_divchn_search (fun k => k.getD 0 0)
      (ht_divchn_insert 16 (fun k => k.getD 0 0) true
        { count := 1, count_ix := 150, group_ix := 4, num_elts := 1,
          max_num_elts := 1, alpha_n := 1, log_alpha_d := 0,
          key_elts := [[([1], [9])]] } [1] [2]).1 [1] = some [2] :=
  ⟨by unfold Present nodesOf; decide,
   by
     obtain ⟨i, h, -, -, -, -, hs1, -, -⟩ := claim_C4 16
       (fun k => k.getD 0 0) true
       { count := 1, count_ix := 150, group_ix := 4, num_elts := 1,
         max_num_elts := 1, alpha_n := 1, log_alpha_d := 0,
         key_elts := [[([1], [9])]] } [1] [2] (by decide)
       (by unfold WellB; decide) (by unfold CountInv; decide) (by decide)
       (by unfold Present nodesOf; decide)
     exact hs1⟩

end HtDivchn
